import Mathlib

/-!
Verification development for the Arbok code-indexing pipeline.

The development shallowly embeds the core of the pipeline:
syntax-tree nodes (tree-sitter), the symbol extractor
(src/core/node-extractor.ts), the relationship resolver
(src/core/edge-resolver.ts), the SQLite-backed symbol store
(src/database/schema.ts, src/database/queries.ts with the
foreign-keys pragma enabled in src/database/connection.ts), the
parse entry point (src/core/parser.ts), the debounced watcher
state machine (src/observer/watcher.ts) and the full-project
indexing orchestrator (arbokInit in src/mcp/tools.ts).

Machine-generated uuid identifiers are modelled as natural numbers
drawn from a counter that is threaded through the computation; every
other field is carried verbatim.  Timestamps (the updated_at column,
filled by a SQL default) are not modelled: no statement below
depends on them.
-/

namespace Arbok

/-- A tree-sitter syntax node.  `field` is the field name of this child
within its parent (what `childForFieldName` selects on); `text` is the
source slice `content.slice(node.startIndex, node.endIndex)` covered by
the node; `startRow`/`endRow` are the 0-based `startPosition.row` and
`endPosition.row`. -/
inductive TSNode where
  | mk (ty text : String) (startRow endRow : Nat) (field : Option String)
      (children : List TSNode)

/-- `node.type` -/
def TSNode.ty : TSNode → String
  | .mk t _ _ _ _ _ => t

/-- The source text covered by the node. -/
def TSNode.text : TSNode → String
  | .mk _ tx _ _ _ _ => tx

/-- `node.startPosition.row` -/
def TSNode.startRow : TSNode → Nat
  | .mk _ _ sr _ _ _ => sr

/-- `node.endPosition.row` -/
def TSNode.endRow : TSNode → Nat
  | .mk _ _ _ er _ _ => er

/-- The tree-sitter field name of this child within its parent. -/
def TSNode.field : TSNode → Option String
  | .mk _ _ _ _ f _ => f

/-- `node.children` -/
def TSNode.children : TSNode → List TSNode
  | .mk _ _ _ _ _ cs => cs

/-- Structural induction for `TSNode` giving the hypothesis on every
member of the child list. -/
theorem TSNode.strongInduction {P : TSNode → Prop}
    (h : ∀ ty tx sr er f cs, (∀ c ∈ cs, P c) → P (TSNode.mk ty tx sr er f cs)) :
    ∀ n, P n := fun n =>
  @TSNode.rec (fun n => P n) (fun cs => ∀ c ∈ cs, P c)
    (fun ty tx sr er f cs ih => h ty tx sr er f cs ih)
    (fun c hc => absurd hc (List.not_mem_nil c))
    (fun _ _ ihh iht => by
      intro c hc
      rcases List.mem_cons.mp hc with rfl | hmem
      · exact ihh
      · exact iht c hmem) n

/-- The child list of a node is structurally smaller than the node. -/
theorem TSNode.sizeOf_children_lt (n : TSNode) : sizeOf n.children < sizeOf n := by
  cases n with
  | mk ty tx sr er f cs => simp [TSNode.children]

/-- `node.childForFieldName(f)`: the first child carrying field name `f`. -/
def childForFieldName (n : TSNode) (f : String) : Option TSNode :=
  n.children.find? (fun c => c.field == some f)

/-!
Kernel-reducible string helpers.  The Lean core `String` functions
(`startsWith`, `trim`, `splitOn`, ...) are implemented over byte
positions and do not reduce inside `decide`/`rfl`; these char-list
versions compute the same JavaScript operations
(`text.startsWith(p)`, `text.trim()`, `content.split(sep)`) and
evaluate by kernel reduction.
-/

/-- `s.startsWith(p)` -/
def strStartsWith (s p : String) : Bool :=
  List.isPrefixOf p.toList s.toList

/-- Strip leading and trailing whitespace from a char list. -/
def trimChars (cs : List Char) : List Char :=
  ((cs.dropWhile Char.isWhitespace).reverse.dropWhile Char.isWhitespace).reverse

/-- `s.trim()` -/
def strTrim (s : String) : String := String.mk (trimChars s.toList)

/-- `s.split(sep)` for a one-character separator, JavaScript
semantics: the empty string splits to one empty piece. -/
def splitOnChar (sep : Char) : List Char → List (List Char)
  | [] => [[]]
  | c :: rest =>
    let r := splitOnChar sep rest
    if c = sep then [] :: r
    else
      match r with
      | [] => [[c]]
      | h :: t => (c :: h) :: t

/-- `path.extname`: the extension (including the dot) of the last path
segment; empty when the segment has no dot or only a leading dot. -/
def extname (p : String) : String :=
  let base := (splitOnChar '/' p.toList).getLastD []
  let suffixLen := ((base.reverse).takeWhile (fun c => c ≠ '.')).length
  if suffixLen = base.length then ""
  else if base.length - suffixLen - 1 = 0 then ""
  else String.mk (base.drop (base.length - suffixLen - 1))

/-- The TypeScript-family extensions dispatched to the TypeScript grammar. -/
def tsExtensions : List String := [".ts", ".tsx", ".js", ".jsx"]

/-- An extracted declaration record: the fields the extractor fills in
(the pushed object minus the freshly generated uuid and the
store-assigned updated_at). -/
structure ENode where
  file_path : String
  name : String
  kind : String
  start_line : Nat
  end_line : Nat
  signature : Option String
  doc_comment : Option String
  exported : Bool
deriving Repr, DecidableEq

/-! ## Symbol extractor (src/core/node-extractor.ts) -/

/-- `hasExportModifier`: true when the parent is an export_statement, or
some sibling on an earlier row inside the same parent is an `export`
keyword node. -/
def hasExportModifier (n : TSNode) (parent : Option TSNode) : Bool :=
  match parent with
  | none => false
  | some p =>
    if p.ty == "export_statement" then true
    else p.children.any (fun s => decide (s.startRow < n.startRow) && s.ty == "export")

/-- `getNameNode`: the first child that is an identifier or type_identifier. -/
def getNameNode (n : TSNode) : Option TSNode :=
  n.children.find? (fun c => c.ty == "identifier" || c.ty == "type_identifier")

/-- Three single-quote characters, the Python raw-string doc marker. -/
def tripleSingleQuote : String := String.mk (List.replicate 3 (Char.ofNat 39))

/-- `getDocComment`: walk the chain of preceding siblings (nearest
first); whenever the current sibling is a comment whose text starts with
a recognized doc marker, return its trimmed text, otherwise keep
walking.  The argument is the previousSibling chain of the node, nearest
sibling first. -/
def getDocComment : List TSNode → Option String
  | [] => none
  | c :: rest =>
    if c.ty == "comment"
        && (strStartsWith c.text "/**" || strStartsWith c.text "\"\"\""
            || strStartsWith c.text tripleSingleQuote) then
      some (strTrim c.text)
    else getDocComment rest

/-- `getNodeSignature`: the trimmed source line at the declaration
start, truncated to 200 characters with an ellipsis. -/
def getNodeSignature (n : TSNode) (content : String) : String :=
  let lines := (splitOnChar '\n' content.toList).map String.mk
  let firstLine := lines.getD n.startRow ""
  let signature := strTrim firstLine
  if signature.length > 200 then String.mk (signature.toList.take 197) ++ "..."
  else signature

/-- `extractFunction` -/
def extractFunction (n : TSNode) (content fp : String) (prevRev : List TSNode)
    (exported : Bool) : List ENode :=
  match getNameNode n with
  | none => []
  | some nameNode =>
    [{ file_path := fp, name := nameNode.text, kind := "function",
       start_line := n.startRow + 1, end_line := n.endRow + 1,
       signature := some (getNodeSignature n content),
       doc_comment := getDocComment prevRev, exported := exported }]

/-- `extractClass` -/
def extractClass (n : TSNode) (content fp : String) (prevRev : List TSNode)
    (exported : Bool) : List ENode :=
  match getNameNode n with
  | none => []
  | some nameNode =>
    [{ file_path := fp, name := nameNode.text, kind := "class",
       start_line := n.startRow + 1, end_line := n.endRow + 1,
       signature := some (getNodeSignature n content),
       doc_comment := getDocComment prevRev, exported := exported }]

/-- `extractInterface` -/
def extractInterface (n : TSNode) (content fp : String) (prevRev : List TSNode)
    (exported : Bool) : List ENode :=
  match getNameNode n with
  | none => []
  | some nameNode =>
    [{ file_path := fp, name := nameNode.text, kind := "interface",
       start_line := n.startRow + 1, end_line := n.endRow + 1,
       signature := some (getNodeSignature n content),
       doc_comment := getDocComment prevRev, exported := exported }]

/-- `extractTypeAlias` -/
def extractTypeAlias (n : TSNode) (content fp : String) (prevRev : List TSNode)
    (exported : Bool) : List ENode :=
  match getNameNode n with
  | none => []
  | some nameNode =>
    [{ file_path := fp, name := nameNode.text, kind := "type_alias",
       start_line := n.startRow + 1, end_line := n.endRow + 1,
       signature := some (getNodeSignature n content),
       doc_comment := getDocComment prevRev, exported := exported }]

/-- `extractEnum` -/
def extractEnum (n : TSNode) (content fp : String) (prevRev : List TSNode)
    (exported : Bool) : List ENode :=
  match getNameNode n with
  | none => []
  | some nameNode =>
    [{ file_path := fp, name := nameNode.text, kind := "enum",
       start_line := n.startRow + 1, end_line := n.endRow + 1,
       signature := some (getNodeSignature n content),
       doc_comment := getDocComment prevRev, exported := exported }]

/-- `extractMethod` -/
def extractMethod (n : TSNode) (content fp : String) (prevRev : List TSNode)
    (exported : Bool) : List ENode :=
  match getNameNode n with
  | none => []
  | some nameNode =>
    [{ file_path := fp, name := nameNode.text, kind := "method",
       start_line := n.startRow + 1, end_line := n.endRow + 1,
       signature := some (getNodeSignature n content),
       doc_comment := getDocComment prevRev, exported := exported }]

/-- `extractVariableDeclaration`: one record per variable_declarator
child whose initializer is an arrow function or function expression. -/
def extractVariableDeclaration (n : TSNode) (content fp : String)
    (prevRev : List TSNode) (exported : Bool) : List ENode :=
  n.children.filterMap (fun child =>
    if child.ty == "variable_declarator" then
      match getNameNode child with
      | none => none
      | some nameNode =>
        if child.children.any (fun c => c.ty == "arrow_function" || c.ty == "function") then
          some { file_path := fp, name := nameNode.text, kind := "variable",
                 start_line := child.startRow + 1, end_line := child.endRow + 1,
                 signature := some (getNodeSignature child content),
                 doc_comment := getDocComment prevRev, exported := exported }
        else none
    else none)

mutual

/-- `extractTypeScriptNodes`: the pre-order walk of the TypeScript tree.
`parent` is the parent node (none at the root) and `prevRev` the chain
of preceding siblings, nearest first.  An export_statement only
delegates to its children (the source returns before the unconditional
child recursion); every other node dispatches by type and then recurses
into every child. -/
def extractTypeScriptNodes (content fp : String) (parent : Option TSNode)
    (prevRev : List TSNode) (n : TSNode) : List ENode :=
  let isExported := hasExportModifier n parent
  (match n.ty with
   | "function_declaration" => extractFunction n content fp prevRev isExported
   | "class_declaration" => extractClass n content fp prevRev isExported
   | "interface_declaration" => extractInterface n content fp prevRev isExported
   | "type_alias_declaration" => extractTypeAlias n content fp prevRev isExported
   | "enum_declaration" => extractEnum n content fp prevRev isExported
   | "lexical_declaration" => extractVariableDeclaration n content fp prevRev isExported
   | "variable_declaration" => extractVariableDeclaration n content fp prevRev isExported
   | "method_definition" => extractMethod n content fp prevRev false
   | _ => []) ++
  (if n.ty == "export_statement" then
    extractTypeScriptChildren content fp n [] n.children
   else
    extractTypeScriptChildren content fp n [] n.children)
termination_by sizeOf n
decreasing_by
  all_goals simp_wf
  all_goals exact TSNode.sizeOf_children_lt n

/-- The `for (const child of node.children)` loop of
`extractTypeScriptNodes`, threading the preceding-sibling chain. -/
def extractTypeScriptChildren (content fp : String) (parent : TSNode)
    (prevRev : List TSNode) : List TSNode → List ENode
  | [] => []
  | c :: rest =>
    extractTypeScriptNodes content fp (some parent) prevRev c ++
    extractTypeScriptChildren content fp parent (c :: prevRev) rest
termination_by l => sizeOf l
decreasing_by
  all_goals simp_wf
  all_goals omega

end

/-- `getPythonDocstring`: the string that is the first statement of the
body, when the body starts with an expression statement wrapping a
string literal. -/
def getPythonDocstring (n : TSNode) : Option String :=
  match childForFieldName n "body" with
  | none => none
  | some body =>
    match body.children.head? with
    | none => none
    | some child =>
      if child.ty == "expression_statement" then
        match child.children.head? with
        | some s => if s.ty == "string" then some (strTrim s.text) else none
        | none => none
      else none

/-- `extractPythonFunction`: always marked exported. -/
def extractPythonFunction (n : TSNode) (content fp : String) : List ENode :=
  match childForFieldName n "name" with
  | none => []
  | some nameNode =>
    [{ file_path := fp, name := nameNode.text, kind := "function",
       start_line := n.startRow + 1, end_line := n.endRow + 1,
       signature := some (getNodeSignature n content),
       doc_comment := getPythonDocstring n, exported := true }]

/-- `extractPythonClass`: always marked exported. -/
def extractPythonClass (n : TSNode) (content fp : String) : List ENode :=
  match childForFieldName n "name" with
  | none => []
  | some nameNode =>
    [{ file_path := fp, name := nameNode.text, kind := "class",
       start_line := n.startRow + 1, end_line := n.endRow + 1,
       signature := some (getNodeSignature n content),
       doc_comment := getPythonDocstring n, exported := true }]

mutual

/-- `extractPythonNodes`: dispatch by node type (a decorated_definition
processes its wrapped function/class definitions), then recurse into
every child unconditionally. -/
def extractPythonNodes (content fp : String) (n : TSNode) : List ENode :=
  (match n.ty with
   | "function_definition" => extractPythonFunction n content fp
   | "class_definition" => extractPythonClass n content fp
   | "decorated_definition" => extractPythonDecoratedChildren content fp n.children
   | _ => []) ++
  extractPythonChildren content fp n.children
termination_by sizeOf n
decreasing_by
  all_goals simp_wf
  all_goals exact TSNode.sizeOf_children_lt n

/-- The unconditional `for (const child of node.children)` recursion of
`extractPythonNodes`. -/
def extractPythonChildren (content fp : String) : List TSNode → List ENode
  | [] => []
  | c :: rest =>
    extractPythonNodes content fp c ++ extractPythonChildren content fp rest
termination_by l => sizeOf l
decreasing_by
  all_goals simp_wf
  all_goals omega

/-- The decorated_definition case: process only the wrapped
function/class definition children. -/
def extractPythonDecoratedChildren (content fp : String) : List TSNode → List ENode
  | [] => []
  | c :: rest =>
    (if c.ty == "function_definition" || c.ty == "class_definition" then
      extractPythonNodes content fp c
     else []) ++ extractPythonDecoratedChildren content fp rest
termination_by l => sizeOf l
decreasing_by
  all_goals simp_wf
  all_goals omega

end

/-- `extractNodes`: dispatch by file extension. -/
def extractNodes (tree : TSNode) (fp content : String) : List ENode :=
  let ext := extname fp
  if tsExtensions.contains ext then
    extractTypeScriptNodes content fp none [] tree
  else if ext == ".py" then
    extractPythonNodes content fp tree
  else []


/-! ## Claim C1: doc-comment extraction -/

/-- A comment node whose text starts with a recognized doc marker. -/
def isDocCommentNode (c : TSNode) : Bool :=
  c.ty == "comment"
    && (strStartsWith c.text "/**" || strStartsWith c.text "\"\"\""
        || strStartsWith c.text tripleSingleQuote)

/-- Modelled from the claim wording of C1, not from the source: the walk
stops at the nearest preceding sibling when it is a non-comment node, and
at the first comment found; only a marker-prefixed first comment yields a
result, otherwise null, and no earlier siblings are considered. -/
def getDocCommentClaimed : List TSNode → Option String
  | [] => none
  | c :: _ =>
    if c.ty == "comment" then
      if strStartsWith c.text "/**" || strStartsWith c.text "\"\"\""
          || strStartsWith c.text tripleSingleQuote then
        some (strTrim c.text)
      else none
    else none

/-- A declaration preceded (nearest first) by a non-comment statement and
then by a well-formed doc comment two siblings back. -/
def c1SiblingChain : List TSNode :=
  [ .mk "expression_statement" "x = 1" 1 1 none [],
    .mk "comment" "/** doc */" 0 0 none [] ]

/-- C1, counterexample: on a declaration whose nearest preceding sibling
is a non-comment node and whose second-nearest sibling is a `/**` doc
comment, the code returns that doc comment while the claim requires null
and forbids looking past the nearest sibling. -/
theorem getDocComment_claim_counterexample :
    getDocComment c1SiblingChain = some "/** doc */"
      ∧ getDocCommentClaimed c1SiblingChain = none := by
  constructor <;> decide

/-- C1, amended: `getDocComment` walks the whole chain of preceding
siblings, skipping non-comment siblings and comments that do not begin
with a doc marker, and returns the trimmed text of the nearest comment
that begins with a recognized doc marker; it returns null only when no
preceding sibling is such a comment. -/
theorem getDocComment_finds_nearest_marker_comment (sibs : List TSNode) :
    getDocComment sibs = (sibs.find? isDocCommentNode).map (fun c => strTrim c.text) := by
  induction sibs with
  | nil => rfl
  | cons c rest ih =>
    cases h : isDocCommentNode c with
    | true =>
      simp only [isDocCommentNode] at h
      simp [getDocComment, isDocCommentNode, List.find?, h]
    | false =>
      simp only [isDocCommentNode] at h
      simp [getDocComment, isDocCommentNode, List.find?, h, ih]

/-! ## Claim C3: no double emission -/

/-- The tree of the Python source `@dec` + newline + `def foo(): pass`:
a decorated_definition wrapping a function_definition. -/
def pyDecoratedTree : TSNode :=
  .mk "decorated_definition" "@dec\ndef foo(): pass" 0 1 none
    [ .mk "decorator" "@dec" 0 0 none [],
      .mk "function_definition" "def foo(): pass" 1 1 none
        [ .mk "def" "def" 1 1 none [],
          .mk "identifier" "foo" 1 1 (some "name") [],
          .mk "parameters" "()" 1 1 (some "parameters") [],
          .mk "block" "pass" 1 1 (some "body")
            [ .mk "pass_statement" "pass" 1 1 none [] ] ] ]

/-- The single declaration record of `foo` in that file. -/
def pyFooRecord : ENode :=
  { file_path := "a.py", name := "foo", kind := "function",
    start_line := 2, end_line := 2,
    signature := some "def foo(): pass", doc_comment := none, exported := true }

/-- C3: the Python extractor emits the declaration wrapped in a
decorated_definition TWICE — once through the decorated_definition case
of the switch and once through the unconditional child recursion (the
TypeScript export_statement case returns early; the Python decorated
case does not), contradicting the claim that a wrapped declaration is
emitted exactly once. -/
theorem decorated_definition_double_emission :
    extractPythonNodes "@dec\ndef foo(): pass" "a.py" pyDecoratedTree
      = [pyFooRecord, pyFooRecord] := by
  simp [pyDecoratedTree, pyFooRecord, extractPythonNodes, extractPythonChildren,
    extractPythonDecoratedChildren, extractPythonFunction, extractPythonClass,
    childForFieldName, getNodeSignature, getPythonDocstring, strTrim, trimChars,
    splitOnChar, TSNode.ty, TSNode.children, TSNode.field, TSNode.text,
    TSNode.startRow, TSNode.endRow]
  decide

/-! ## Claim C10: Python nodes are always exported -/

/-- Every record produced by `extractPythonFunction` has exported = true. -/
theorem extractPythonFunction_exported (n : TSNode) (content fp : String) :
    ∀ x ∈ extractPythonFunction n content fp, x.exported = true := by
  intro x hx
  unfold extractPythonFunction at hx
  cases h : childForFieldName n "name" with
  | none => rw [h] at hx; simp at hx
  | some nameNode => rw [h] at hx; simp at hx; subst hx; rfl

/-- Every record produced by `extractPythonClass` has exported = true. -/
theorem extractPythonClass_exported (n : TSNode) (content fp : String) :
    ∀ x ∈ extractPythonClass n content fp, x.exported = true := by
  intro x hx
  unfold extractPythonClass at hx
  cases h : childForFieldName n "name" with
  | none => rw [h] at hx; simp at hx
  | some nameNode => rw [h] at hx; simp at hx; subst hx; rfl

/-- Auxiliary: the unconditional child recursion preserves the
all-exported property. -/
theorem extractPythonChildren_exported (content fp : String) (cs : List TSNode)
    (ih : ∀ c ∈ cs, ∀ x ∈ extractPythonNodes content fp c, x.exported = true) :
    ∀ x ∈ extractPythonChildren content fp cs, x.exported = true := by
  induction cs with
  | nil => intro x hx; simp [extractPythonChildren] at hx
  | cons c rest ihl =>
    intro x hx
    simp only [extractPythonChildren] at hx
    rcases List.mem_append.mp hx with h | h
    · exact ih c (by simp) x h
    · exact ihl (fun c hc => ih c (by simp [hc])) x h

/-- Auxiliary: the decorated_definition case preserves the all-exported
property. -/
theorem extractPythonDecoratedChildren_exported (content fp : String)
    (cs : List TSNode)
    (ih : ∀ c ∈ cs, ∀ x ∈ extractPythonNodes content fp c, x.exported = true) :
    ∀ x ∈ extractPythonDecoratedChildren content fp cs, x.exported = true := by
  induction cs with
  | nil => intro x hx; simp [extractPythonDecoratedChildren] at hx
  | cons c rest ihl =>
    intro x hx
    simp only [extractPythonDecoratedChildren] at hx
    rcases List.mem_append.mp hx with h | h
    · by_cases hc : (c.ty == "function_definition" || c.ty == "class_definition") = true
      · rw [if_pos hc] at h
        exact ih c (by simp) x h
      · rw [if_neg hc] at h
        simp at h
    · exact ihl (fun c hc => ih c (by simp [hc])) x h

/-- C10: every node the Python extractor produces — at any nesting level,
methods inside classes and nested functions included — carries
exported = true. -/
theorem python_extractor_marks_all_exported (content fp : String) (n : TSNode) :
    ∀ x ∈ extractPythonNodes content fp n, x.exported = true := by
  refine TSNode.strongInduction
    (P := fun n => ∀ x ∈ extractPythonNodes content fp n, x.exported = true) ?_ n
  intro ty tx sr er f cs ih x hx
  rw [extractPythonNodes] at hx
  rcases List.mem_append.mp hx with h | h
  · revert h
    simp only [TSNode.ty, TSNode.children]
    split
    · exact fun h => extractPythonFunction_exported _ content fp x h
    · exact fun h => extractPythonClass_exported _ content fp x h
    · exact fun h => extractPythonDecoratedChildren_exported content fp cs ih x h
    · intro h; simp at h
  · exact extractPythonChildren_exported content fp cs ih x
      (by simpa [TSNode.children] using h)

/-- C10 witness: the concrete decorated-function file evaluates to
records that are all exported. -/
theorem python_extractor_marks_all_exported_witness :
    pyFooRecord.exported = true :=
  python_extractor_marks_all_exported "@dec\ndef foo(): pass" "a.py" pyDecoratedTree
    pyFooRecord (by rw [decorated_definition_double_emission]; simp)

/-! ## Symbol store (src/database/schema.ts, src/database/queries.ts)

The schema declares both edge endpoints as foreign keys into nodes with
ON DELETE CASCADE, CHECK constraints on kind/relation, and primary keys
on id; src/database/connection.ts switches the foreign_keys pragma on,
so the constraints are enforced on every insert. -/

/-- A row of the nodes table (modulo the updated_at default). -/
structure DBNode where
  id : Nat
  e : ENode
deriving Repr, DecidableEq

/-- A row of the edges table. -/
structure DBEdge where
  id : Nat
  source_node_id : Nat
  target_node_id : Nat
  relation : String
deriving Repr, DecidableEq

/-- The two tables. -/
structure DB where
  nodes : List DBNode
  edges : List DBEdge
deriving Repr, DecidableEq

/-- CHECK(kind IN (...)) of the nodes table. -/
def nodeKinds : List String :=
  ["function", "class", "variable", "interface", "method", "type_alias", "enum"]

/-- CHECK(relation IN (...)) of the edges table. -/
def edgeRelations : List String := ["imports", "calls", "extends", "implements"]

/-- One INSERT INTO nodes: rejected on a duplicate primary key or a kind
outside the CHECK constraint. -/
def insertNode (db : DB) (n : DBNode) : Except String DB :=
  if db.nodes.any (fun x => x.id == n.id) then
    .error "UNIQUE constraint failed: nodes.id"
  else if !(nodeKinds.contains n.e.kind) then
    .error "CHECK constraint failed: kind"
  else .ok { db with nodes := db.nodes ++ [n] }

/-- `insertNodes`: the transactional bulk insert; any failing row aborts
the whole transaction (the Except result leaves the store untouched). -/
def insertNodes (db : DB) (ns : List DBNode) : Except String DB :=
  ns.foldlM insertNode db

/-- One INSERT INTO edges: rejected on a duplicate primary key, a
relation outside the CHECK constraint, or an endpoint that is not an
existing node id (the foreign keys, with the pragma on). -/
def insertEdge (db : DB) (e : DBEdge) : Except String DB :=
  if db.edges.any (fun x => x.id == e.id) then
    .error "UNIQUE constraint failed: edges.id"
  else if !(edgeRelations.contains e.relation) then
    .error "CHECK constraint failed: relation"
  else if !(db.nodes.any (fun n => n.id == e.source_node_id)) then
    .error "FOREIGN KEY constraint failed"
  else if !(db.nodes.any (fun n => n.id == e.target_node_id)) then
    .error "FOREIGN KEY constraint failed"
  else .ok { db with edges := db.edges ++ [e] }

/-- `insertEdges`: the transactional bulk insert of edges. -/
def insertEdges (db : DB) (es : List DBEdge) : Except String DB :=
  es.foldlM insertEdge db

/-- The ids selected by `SELECT id FROM nodes WHERE file_path = ?`. -/
def fileNodeIds (db : DB) (fp : String) : List Nat :=
  (db.nodes.filter (fun n => n.e.file_path == fp)).map DBNode.id

/-- `deleteEdgesByFile`: two DELETE statements — edges whose source is a
node of the file, then edges whose target is a node of the file. -/
def deleteEdgesByFile (db : DB) (fp : String) : DB :=
  let ids := fileNodeIds db fp
  let afterSource := db.edges.filter (fun e => !(ids.contains e.source_node_id))
  { db with edges := afterSource.filter (fun e => !(ids.contains e.target_node_id)) }

/-- `deleteNodesByFile`: DELETE FROM nodes WHERE file_path = ?; with the
foreign-keys pragma on, ON DELETE CASCADE also drops every edge that
still references a deleted node. -/
def deleteNodesByFile (db : DB) (fp : String) : DB :=
  let ids := fileNodeIds db fp
  { nodes := db.nodes.filter (fun n => !(n.e.file_path == fp)),
    edges := db.edges.filter (fun e =>
      !(ids.contains e.source_node_id) && !(ids.contains e.target_node_id)) }

/-- `clearDatabase`: DELETE FROM edges; DELETE FROM nodes. -/
def clearDatabase (_db : DB) : DB := { nodes := [], edges := [] }

/-- `getCounts`: node count, edge count, distinct file count. -/
def getCounts (db : DB) : Nat × Nat × Nat :=
  (db.nodes.length, db.edges.length,
    ((db.nodes.map (fun n => n.e.file_path)).dedup).length)

/-- Lexicographic byte order on strings (the SQLite BINARY collation;
UTF-8 byte order coincides with code-point order). -/
def charListLt : List Char → List Char → Bool
  | [], [] => false
  | [], _ :: _ => true
  | _ :: _, [] => false
  | a :: as, b :: bs =>
    if a.toNat < b.toNat then true
    else if b.toNat < a.toNat then false
    else charListLt as bs

/-- Strict order on strings under the BINARY collation. -/
def strLt (a b : String) : Bool := charListLt a.toList b.toList

/-- Reflexive order on strings under the BINARY collation. -/
def strLe (a b : String) : Bool := !(strLt b a)

/-- Insert into a le-sorted list (the generic sorting step used to model
a SQL ORDER BY). -/
def insertSortedBy (le : α → α → Bool) (x : α) : List α → List α
  | [] => [x]
  | y :: ys => if le x y then x :: y :: ys else y :: insertSortedBy le x ys

/-- Insertion sort used to model a SQL ORDER BY. -/
def sortBy (le : α → α → Bool) : List α → List α
  | [] => []
  | x :: xs => insertSortedBy le x (sortBy le xs)

/-- The ORDER BY file_path, start_line key of `getAllNodes`. -/
def nodeRowLe (a b : DBNode) : Bool :=
  strLt a.e.file_path b.e.file_path
    || (a.e.file_path == b.e.file_path && a.e.start_line ≤ b.e.start_line)

/-- `getAllNodes`: every node row, ORDER BY file_path, start_line. -/
def getAllNodes (db : DB) : List DBNode :=
  sortBy nodeRowLe db.nodes

/-- SQLite LIKE character match: ASCII-case-insensitive equality. -/
def charEqCI (p c : Char) : Bool := p.toLower == c.toLower

/-- SQLite LIKE pattern match over char lists: percent matches any run
of characters, underscore any single character, plain characters match
ASCII-case-insensitively. -/
def likeMatch : List Char → List Char → Bool
  | [], [] => true
  | [], _ :: _ => false
  | '%' :: ps, cs =>
    likeMatch ps cs
      || (match cs with
          | [] => false
          | _ :: cs2 => likeMatch ('%' :: ps) cs2)
  | '_' :: ps, cs =>
    (match cs with
     | [] => false
     | _ :: cs2 => likeMatch ps cs2)
  | p :: ps, cs =>
    (match cs with
     | [] => false
     | c :: cs2 => charEqCI p c && likeMatch ps cs2)
termination_by ps cs => ps.length + cs.length

/-- `searchNodes`: WHERE name LIKE %query% (AND kind = ? when given)
ORDER BY name ASC LIMIT 100. -/
def searchNodes (db : DB) (query : String) (kind : Option String) : List DBNode :=
  let pat := ('%' :: query.toList) ++ ['%']
  let filtered := db.nodes.filter (fun n =>
    likeMatch pat n.e.name.toList
      && (match kind with | some k => n.e.kind == k | none => true))
  (sortBy (fun a b => strLe a.e.name b.e.name) filtered).take 100

/-! ## Claim C4: referential integrity of edge inserts -/

/-- Inserting an edge row never changes the nodes table. -/
theorem insertEdge_preserves_nodes {db db2 : DB} {e : DBEdge}
    (h : insertEdge db e = Except.ok db2) : db2.nodes = db.nodes := by
  unfold insertEdge at h
  by_cases h1 : (db.edges.any fun x => x.id == e.id) = true
  · rw [if_pos h1] at h; cases h
  · rw [if_neg h1] at h
    by_cases h2 : (!edgeRelations.contains e.relation) = true
    · rw [if_pos h2] at h; cases h
    · rw [if_neg h2] at h
      by_cases h3 : (!db.nodes.any fun n => n.id == e.source_node_id) = true
      · rw [if_pos h3] at h; cases h
      · rw [if_neg h3] at h
        by_cases h4 : (!db.nodes.any fun n => n.id == e.target_node_id) = true
        · rw [if_pos h4] at h; cases h
        · rw [if_neg h4] at h
          cases h
          rfl

/-- An endpoint that no node id matches makes the any-scan false. -/
theorem any_id_eq_false {ns : List DBNode} {v : Nat}
    (hd : ∀ n ∈ ns, n.id ≠ v) : (ns.any fun n => n.id == v) = false := by
  rw [List.any_eq_false]
  intro n hn
  simpa using hd n hn

/-- A single insert of an edge with a nonexistent endpoint fails. -/
theorem insertEdge_error_of_dangling {db : DB} {e : DBEdge}
    (hd : (∀ n ∈ db.nodes, n.id ≠ e.source_node_id)
        ∨ (∀ n ∈ db.nodes, n.id ≠ e.target_node_id)) :
    ∃ msg, insertEdge db e = Except.error msg := by
  by_cases h1 : (db.edges.any fun x => x.id == e.id) = true
  · exact ⟨_, by unfold insertEdge; rw [if_pos h1]⟩
  · by_cases h2 : (!edgeRelations.contains e.relation) = true
    · exact ⟨_, by unfold insertEdge; rw [if_neg h1, if_pos h2]⟩
    · by_cases h3 : (!db.nodes.any fun n => n.id == e.source_node_id) = true
      · exact ⟨_, by unfold insertEdge; rw [if_neg h1, if_neg h2, if_pos h3]⟩
      · rcases hd with hd | hd
        · exact absurd (by rw [any_id_eq_false hd]; rfl) h3
        · have h4 : (!db.nodes.any fun n => n.id == e.target_node_id) = true := by
            rw [any_id_eq_false hd]; rfl
          exact ⟨_, by unfold insertEdge; rw [if_neg h1, if_neg h2, if_neg h3, if_pos h4]⟩

/-- A bulk insert containing an edge with a nonexistent endpoint fails. -/
theorem insertEdges_error_of_dangling {e : DBEdge} :
    ∀ (es : List DBEdge) (db : DB), e ∈ es →
      ((∀ n ∈ db.nodes, n.id ≠ e.source_node_id)
        ∨ (∀ n ∈ db.nodes, n.id ≠ e.target_node_id)) →
      ∃ msg, insertEdges db es = Except.error msg := by
  intro es
  induction es with
  | nil => intro db h; simp at h
  | cons a rest ih =>
    intro db hmem hd
    cases ha : insertEdge db a with
    | error m =>
      refine ⟨m, ?_⟩
      simp only [insertEdges, List.foldlM_cons, ha]
      rfl
    | ok db2 =>
      rcases List.mem_cons.mp hmem with rfl | hmem2
      · rcases insertEdge_error_of_dangling hd with ⟨m, hm⟩
        rw [ha] at hm
        cases hm
      · have hnodes := insertEdge_preserves_nodes ha
        rcases ih db2 hmem2 (by rw [hnodes]; exact hd) with ⟨m, hm⟩
        refine ⟨m, ?_⟩
        have hstep : insertEdges db (a :: rest) = insertEdges db2 rest := by
          simp only [insertEdges, List.foldlM_cons, ha]
          rfl
        rw [hstep, hm]

/-- C4: an edge whose source or target id references no existing node is
rejected by the store — the single insert and any bulk insert containing
it throw, and the edge is not stored (the transaction yields an error,
not a new store state). -/
theorem edge_insert_referential_integrity (db : DB) (e : DBEdge) (es : List DBEdge)
    (hd : (∀ n ∈ db.nodes, n.id ≠ e.source_node_id)
        ∨ (∀ n ∈ db.nodes, n.id ≠ e.target_node_id))
    (hmem : e ∈ es) :
    (∃ msg, insertEdge db e = Except.error msg)
      ∧ (∃ msg, insertEdges db es = Except.error msg) :=
  ⟨insertEdge_error_of_dangling hd, insertEdges_error_of_dangling es db hmem hd⟩

/-- The one stored record of the C4 witness store. -/
def c4ENode : ENode :=
  { file_path := "a.ts", name := "A", kind := "class", start_line := 1,
    end_line := 1, signature := none, doc_comment := none, exported := true }

/-- A store with one node (id 0) of file a.ts. -/
def c4Db : DB := { nodes := [⟨0, c4ENode⟩], edges := [] }

/-- An edge whose source id 5 references no existing node. -/
def c4DanglingEdge : DBEdge :=
  { id := 7, source_node_id := 5, target_node_id := 0, relation := "imports" }

/-- C4 witness: the dangling edge is concretely rejected. -/
theorem edge_insert_referential_integrity_witness :
    (∃ msg, insertEdge c4Db c4DanglingEdge = Except.error msg)
      ∧ (∃ msg, insertEdges c4Db [c4DanglingEdge] = Except.error msg) :=
  edge_insert_referential_integrity c4Db c4DanglingEdge [c4DanglingEdge]
    (Or.inl (by decide)) (by decide)

/-! ## Claim C5: delete-by-file removes exactly the file records -/

/-- C5: deleting a file (deleteEdgesByFile, then deleteNodesByFile)
leaves exactly the nodes of other files, in order, and exactly the edges
neither of whose endpoints is an id of a node of the deleted file. -/
theorem delete_file_exact_frame (db : DB) (fp : String) :
    (deleteNodesByFile (deleteEdgesByFile db fp) fp).nodes
        = db.nodes.filter (fun n => !(n.e.file_path == fp))
      ∧ (deleteNodesByFile (deleteEdgesByFile db fp) fp).edges
        = db.edges.filter (fun e =>
            !((fileNodeIds db fp).contains e.source_node_id)
              && !((fileNodeIds db fp).contains e.target_node_id)) := by
  constructor
  · rfl
  · show ((db.edges.filter _).filter _).filter _ = _
    rw [show fileNodeIds (deleteEdgesByFile db fp) fp = fileNodeIds db fp from rfl]
    rw [List.filter_filter, List.filter_filter]
    apply List.filter_congr
    intro e _
    cases h1 : (fileNodeIds db fp).contains e.source_node_id <;>
      cases h2 : (fileNodeIds db fp).contains e.target_node_id <;>
      simp [h1, h2]

/-! ## Claim C7: symbol search -/

/-- Membership in an insertion step. -/
theorem mem_insertSortedBy {le : α → α → Bool} {x y : α} {l : List α} :
    y ∈ insertSortedBy le x l ↔ y = x ∨ y ∈ l := by
  induction l with
  | nil => simp [insertSortedBy]
  | cons z zs ih =>
    rw [insertSortedBy]
    by_cases h : le x z = true
    · rw [if_pos h]; simp
    · rw [if_neg h]; simp [ih]; tauto

/-- Sorting preserves membership. -/
theorem mem_sortBy {le : α → α → Bool} {y : α} {l : List α} :
    y ∈ sortBy le l ↔ y ∈ l := by
  induction l with
  | nil => simp [sortBy]
  | cons z zs ih => rw [sortBy]; simp [mem_insertSortedBy, ih]

/-- Inserting into a sorted list keeps it sorted, given totality of the
comparison. -/
theorem chain'_insertSortedBy {le : α → α → Bool}
    (htot : ∀ a b, le a b = false → le b a = true) (x : α) (l : List α)
    (hl : l.Chain' (fun a b => le a b = true)) :
    (insertSortedBy le x l).Chain' (fun a b => le a b = true) := by
  induction l with
  | nil => simp [insertSortedBy]
  | cons y ys ih =>
    rw [insertSortedBy]
    by_cases h : le x y = true
    · rw [if_pos h]
      exact List.Chain'.cons h hl
    · rw [if_neg h]
      have hyx : le y x = true := htot x y (by simpa using h)
      have hys : ys.Chain' (fun a b => le a b = true) := (List.chain'_cons'.mp hl).2
      refine List.chain'_cons'.mpr ⟨?_, ih hys⟩
      intro b hb
      cases ys with
      | nil =>
        simp [insertSortedBy] at hb
        subst hb
        exact hyx
      | cons z zs =>
        rw [insertSortedBy] at hb
        by_cases h2 : le x z = true
        · rw [if_pos h2] at hb
          simp at hb
          subst hb
          exact hyx
        · rw [if_neg h2] at hb
          simp at hb
          subst hb
          exact (List.chain'_cons.mp hl).1

/-- Insertion sort sorts, given totality of the comparison. -/
theorem chain'_sortBy {le : α → α → Bool}
    (htot : ∀ a b, le a b = false → le b a = true) (l : List α) :
    (sortBy le l).Chain' (fun a b => le a b = true) := by
  induction l with
  | nil => simp [sortBy]
  | cons z zs ih => rw [sortBy]; exact chain'_insertSortedBy htot z _ ih

/-- The BINARY collation order is asymmetric. -/
theorem charListLt_asymm : ∀ {x y : List Char},
    charListLt x y = true → charListLt y x = false := by
  intro x
  induction x with
  | nil =>
    intro y h
    cases y with
    | nil => simp [charListLt] at h
    | cons b bs => simp [charListLt]
  | cons a as ih =>
    intro y h
    cases y with
    | nil => simp [charListLt] at h
    | cons b bs =>
      rw [charListLt] at h ⊢
      by_cases hab : a.toNat < b.toNat
      · rw [if_neg (show ¬ b.toNat < a.toNat by omega), if_pos hab]
      · rw [if_neg hab] at h
        by_cases hba : b.toNat < a.toNat
        · rw [if_pos hba] at h
          cases h
        · rw [if_neg hba] at h
          rw [if_neg hba, if_neg hab]
          exact ih h

/-- The string order used for ORDER BY is total. -/
theorem strLe_total (a b : String) : strLe a b = false → strLe b a = true := by
  intro h
  simp only [strLe, Bool.not_eq_false'] at h
  simp only [strLe, Bool.not_eq_true']
  exact charListLt_asymm h

/-- The one stored record of the C7 counterexample store. -/
def c7ENode : ENode :=
  { file_path := "a.ts", name := "x", kind := "function", start_line := 1,
    end_line := 1, signature := none, doc_comment := none, exported := true }

/-- A store with one single-character node name, for the LIKE wildcard
counterexample. -/
def c7Db : DB := { nodes := [⟨1, c7ENode⟩], edges := [] }

/-- C7, counterexample: searching for the one-character query underscore
returns the node named x, although x does not contain an underscore as a
substring — the query is pasted into the LIKE pattern unescaped, so the
underscore matches any single character (and matching is
ASCII-case-insensitive). -/
theorem searchNodes_substring_counterexample :
    (searchNodes c7Db "_" none).map (fun n => n.e.name) = ["x"]
      ∧ ¬ List.IsInfix "_".toList "x".toList := by
  constructor
  · simp [searchNodes, c7Db, c7ENode, likeMatch, charEqCI, sortBy,
      insertSortedBy, List.take]
  · decide

/-- C7, amended: every result of searchNodes is a stored node whose name
matches the SQL LIKE pattern percent-query-percent
(ASCII-case-insensitive, with percent and underscore in the query acting
as wildcards), satisfies the kind filter when one is given; the results
are ordered by name ascending (BINARY collation) and at most 100 rows
are returned however many match. -/
theorem searchNodes_like_cap_order (db : DB) (query : String) (kind : Option String) :
    (∀ n ∈ searchNodes db query kind,
        n ∈ db.nodes
          ∧ likeMatch (('%' :: query.toList) ++ ['%']) n.e.name.toList = true
          ∧ ∀ k, kind = some k → n.e.kind = k)
      ∧ (searchNodes db query kind).length ≤ 100
      ∧ (searchNodes db query kind).Chain'
          (fun a b => strLe a.e.name b.e.name = true) := by
  refine ⟨?_, ?_, ?_⟩
  · intro n hn
    have hn2 : n ∈ sortBy (fun a b => strLe a.e.name b.e.name)
        (db.nodes.filter (fun n =>
          likeMatch (('%' :: query.toList) ++ ['%']) n.e.name.toList
            && (match kind with | some k => n.e.kind == k | none => true))) :=
      (List.take_subset _ _) hn
    have hn3 := mem_sortBy.mp hn2
    rcases List.mem_filter.mp hn3 with ⟨hmem, hcond⟩
    rw [Bool.and_eq_true] at hcond
    refine ⟨hmem, hcond.1, ?_⟩
    intro k hk
    subst hk
    simpa using hcond.2
  · exact List.length_take_le _ _
  · have hs := chain'_sortBy
      (fun a b : DBNode => strLe_total a.e.name b.e.name)
      (db.nodes.filter (fun n =>
        likeMatch (('%' :: query.toList) ++ ['%']) n.e.name.toList
          && (match kind with | some k => n.e.kind == k | none => true)))
    exact hs.take _

/-- The one stored record of the C7 witness store. -/
def c7WitnessENode : ENode :=
  { file_path := "s.ts", name := "MyServ", kind := "class", start_line := 1,
    end_line := 1, signature := none, doc_comment := none, exported := true }

/-- A store for the search witness: one class MyServ. -/
def c7WitnessDb : DB := { nodes := [⟨2, c7WitnessENode⟩], edges := [] }

/-- C7 witness: searching Serv with kind class on the concrete store
returns the stored class row, satisfying every clause of the amended
statement. -/
theorem searchNodes_like_cap_order_witness :
    (⟨2, c7WitnessENode⟩ : DBNode) ∈ searchNodes c7WitnessDb "Serv" (some "class")
      ∧ (⟨2, c7WitnessENode⟩ : DBNode) ∈ c7WitnessDb.nodes
      ∧ likeMatch (('%' :: "Serv".toList) ++ ['%']) c7WitnessENode.name.toList = true
      ∧ c7WitnessENode.kind = "class" := by
  have h := searchNodes_like_cap_order c7WitnessDb "Serv" (some "class")
  have hmem : (⟨2, c7WitnessENode⟩ : DBNode)
      ∈ searchNodes c7WitnessDb "Serv" (some "class") := by
    simp [searchNodes, c7WitnessDb, c7WitnessENode, likeMatch, charEqCI,
      sortBy, insertSortedBy, List.take]
  rcases h.1 _ hmem with ⟨h1, h2, h3⟩
  exact ⟨hmem, h1, h2, h3 "class" rfl⟩

/-! ## Relationship resolver (src/core/edge-resolver.ts)

Edge ids (uuids in the source) are attached later by the orchestrator;
the resolver result is the id-free payload.  The source reads
getAllNodes() from the store inside each helper; resolution never
mutates the store, so the model passes the same getAllNodes result in.
Unused content parameters of the source helpers are dropped. -/

/-- An edge payload produced by the resolver (the pushed object minus
the freshly generated uuid). -/
structure EEdge where
  source_node_id : Nat
  target_node_id : Nat
  relation : String
deriving Repr, DecidableEq

mutual

/-- `extractImportedNames`: every identifier descendant, pre-order. -/
def extractImportedNames (n : TSNode) : List String :=
  (if n.ty == "identifier" then [n.text] else [])
    ++ extractImportedNamesList n.children
termination_by sizeOf n
decreasing_by
  all_goals simp_wf
  all_goals exact TSNode.sizeOf_children_lt n

/-- The child loop of `extractImportedNames`. -/
def extractImportedNamesList : List TSNode → List String
  | [] => []
  | c :: rest => extractImportedNames c ++ extractImportedNamesList rest
termination_by l => sizeOf l
decreasing_by
  all_goals simp_wf
  all_goals omega

end

/-- The imported names of a TypeScript import statement: the identifier
descendants of its import_clause children. -/
def importClauseNames (n : TSNode) : List String :=
  (n.children.filter (fun c => c.ty == "import_clause")).flatMap
    extractImportedNames

/-- `resolveImport`: for each imported name, the source is the first
exported node of the current file (skip the name when there is none) and
the target the first store node with the same name, exported, in a
different file; emit an imports edge when both exist. -/
def resolveImport (n : TSNode) (fp : String) (fileNodes allNodes : List DBNode) :
    List EEdge :=
  (importClauseNames n).filterMap (fun nm =>
    match fileNodes.find? (fun x => x.e.exported) with
    | none => none
    | some src =>
      match allNodes.find? (fun t =>
          t.e.name == nm && t.e.exported && !(t.e.file_path == fp)) with
      | none => none
      | some tgt => some ⟨src.id, tgt.id, "imports"⟩)

/-- `getClassName`: first type_identifier or identifier child. -/
def getClassName (n : TSNode) : Option String :=
  (n.children.find? (fun c => c.ty == "type_identifier" || c.ty == "identifier")).map
    TSNode.text

/-- `getTypeName`: first type_identifier or identifier child. -/
def getTypeName (n : TSNode) : Option String :=
  (n.children.find? (fun c => c.ty == "type_identifier" || c.ty == "identifier")).map
    TSNode.text

/-- `resolveHeritageClause`: extends targets must be stored classes,
implements targets stored interfaces. -/
def resolveHeritageClause (n : TSNode) (sourceNode : DBNode)
    (allNodes : List DBNode) : List EEdge :=
  n.children.flatMap (fun child =>
    if child.ty == "extends_clause" then
      match getTypeName child with
      | none => []
      | some typeName =>
        match allNodes.find? (fun t => t.e.name == typeName && t.e.kind == "class") with
        | none => []
        | some tgt => [⟨sourceNode.id, tgt.id, "extends"⟩]
    else if child.ty == "implements_clause" then
      match getTypeName child with
      | none => []
      | some typeName =>
        match allNodes.find? (fun t => t.e.name == typeName && t.e.kind == "interface") with
        | none => []
        | some tgt => [⟨sourceNode.id, tgt.id, "implements"⟩]
    else [])

/-- `resolveClassHeritage`: find the freshly extracted class node for
this class name, then resolve each class_heritage child. -/
def resolveClassHeritage (n : TSNode) (fileNodes allNodes : List DBNode) :
    List EEdge :=
  match getClassName n with
  | none => []
  | some className =>
    match fileNodes.find? (fun x => x.e.name == className && x.e.kind == "class") with
    | none => []
    | some classNode =>
      (n.children.filter (fun c => c.ty == "class_heritage")).flatMap
        (fun c => resolveHeritageClause c classNode allNodes)

mutual

/-- `extractPythonImportedNames`: every identifier descendant. -/
def extractPythonImportedNames (n : TSNode) : List String :=
  (if n.ty == "identifier" then [n.text] else [])
    ++ extractPythonImportedNamesList n.children
termination_by sizeOf n
decreasing_by
  all_goals simp_wf
  all_goals exact TSNode.sizeOf_children_lt n

/-- The child loop of `extractPythonImportedNames`. -/
def extractPythonImportedNamesList : List TSNode → List String
  | [] => []
  | c :: rest => extractPythonImportedNames c ++ extractPythonImportedNamesList rest
termination_by l => sizeOf l
decreasing_by
  all_goals simp_wf
  all_goals omega

end

/-- The imported names of a Python import: a plain import takes the text
of each dotted_name/identifier child; a from-import re-extracts the
identifiers of the name field once per dotted_name/identifier child (the
loop of the source re-reads childForFieldName on every iteration). -/
def pythonImportNames (n : TSNode) : List String :=
  if n.ty == "import_statement" then
    (n.children.filter (fun c => c.ty == "dotted_name" || c.ty == "identifier")).map
      TSNode.text
  else if n.ty == "import_from_statement" then
    n.children.flatMap (fun c =>
      if c.ty == "dotted_name" || c.ty == "identifier" then
        match childForFieldName n "name" with
        | some nameNode => extractPythonImportedNames nameNode
        | none => []
      else [])
  else []

/-- `resolvePythonImport`: like the TypeScript resolver, but the target
need only share the name and live in a different file — the source omits
the exported check here. -/
def resolvePythonImport (n : TSNode) (fp : String) (fileNodes allNodes : List DBNode) :
    List EEdge :=
  (pythonImportNames n).filterMap (fun nm =>
    match fileNodes.find? (fun x => x.e.exported) with
    | none => none
    | some src =>
      match allNodes.find? (fun t =>
          t.e.name == nm && !(t.e.file_path == fp)) with
      | none => none
      | some tgt => some ⟨src.id, tgt.id, "imports"⟩)

/-- `resolvePythonClassHeritage`: one extends edge per identifier in the
superclasses argument list that names a stored class. -/
def resolvePythonClassHeritage (n : TSNode) (fileNodes allNodes : List DBNode) :
    List EEdge :=
  match childForFieldName n "name" with
  | none => []
  | some nameNode =>
    match fileNodes.find? (fun x => x.e.name == nameNode.text && x.e.kind == "class") with
    | none => []
    | some classNode =>
      match childForFieldName n "superclasses" with
      | none => []
      | some argumentList =>
        argumentList.children.flatMap (fun c =>
          if c.ty == "identifier" then
            match allNodes.find? (fun t => t.e.name == c.text && t.e.kind == "class") with
            | none => []
            | some tgt => [⟨classNode.id, tgt.id, "extends"⟩]
          else [])

mutual

/-- `resolveTypeScriptEdges`: pre-order walk dispatching import
statements and class declarations, recursing into every child. -/
def resolveTypeScriptEdges (fp : String) (fileNodes allNodes : List DBNode)
    (n : TSNode) : List EEdge :=
  (if n.ty == "import_statement" then resolveImport n fp fileNodes allNodes
   else if n.ty == "class_declaration" then resolveClassHeritage n fileNodes allNodes
   else []) ++ resolveTypeScriptEdgesList fp fileNodes allNodes n.children
termination_by sizeOf n
decreasing_by
  all_goals simp_wf
  all_goals exact TSNode.sizeOf_children_lt n

/-- The child loop of `resolveTypeScriptEdges`. -/
def resolveTypeScriptEdgesList (fp : String) (fileNodes allNodes : List DBNode) :
    List TSNode → List EEdge
  | [] => []
  | c :: rest =>
    resolveTypeScriptEdges fp fileNodes allNodes c
      ++ resolveTypeScriptEdgesList fp fileNodes allNodes rest
termination_by l => sizeOf l
decreasing_by
  all_goals simp_wf
  all_goals omega

end

mutual

/-- `resolvePythonEdges`: pre-order walk dispatching both import forms
and class definitions, recursing into every child. -/
def resolvePythonEdges (fp : String) (fileNodes allNodes : List DBNode)
    (n : TSNode) : List EEdge :=
  (if n.ty == "import_statement" || n.ty == "import_from_statement" then
    resolvePythonImport n fp fileNodes allNodes
   else if n.ty == "class_definition" then
    resolvePythonClassHeritage n fileNodes allNodes
   else []) ++ resolvePythonEdgesList fp fileNodes allNodes n.children
termination_by sizeOf n
decreasing_by
  all_goals simp_wf
  all_goals exact TSNode.sizeOf_children_lt n

/-- The child loop of `resolvePythonEdges`. -/
def resolvePythonEdgesList (fp : String) (fileNodes allNodes : List DBNode) :
    List TSNode → List EEdge
  | [] => []
  | c :: rest =>
    resolvePythonEdges fp fileNodes allNodes c
      ++ resolvePythonEdgesList fp fileNodes allNodes rest
termination_by l => sizeOf l
decreasing_by
  all_goals simp_wf
  all_goals omega

end

/-- `resolveEdges`: dispatch by file extension; the store snapshot is
read through `getAllNodes`. -/
def resolveEdges (tree : TSNode) (fp : String) (fileNodes : List DBNode)
    (db : DB) : List EEdge :=
  if tsExtensions.contains (extname fp) then
    resolveTypeScriptEdges fp fileNodes (getAllNodes db) tree
  else if extname fp == ".py" then
    resolvePythonEdges fp fileNodes (getAllNodes db) tree
  else []

/-! ## Claim C2: conditions for imports edges -/

/-- An exported node of the importing Python file b.py. -/
def c2BENode : ENode :=
  { file_path := "b.py", name := "helper", kind := "function", start_line := 3,
    end_line := 4, signature := none, doc_comment := none, exported := true }

/-- A NON-exported store node named Hidden, in another file. -/
def c2HiddenENode : ENode :=
  { file_path := "c.ts", name := "Hidden", kind := "class", start_line := 1,
    end_line := 2, signature := none, doc_comment := none, exported := false }

/-- A store holding the importing file node and the non-exported target. -/
def c2Db : DB := { nodes := [⟨10, c2BENode⟩, ⟨11, c2HiddenENode⟩], edges := [] }

/-- The tree of the Python file b.py: from c import Hidden. -/
def pyImportTree : TSNode :=
  .mk "module" "from c import Hidden" 0 0 none
    [ .mk "import_from_statement" "from c import Hidden" 0 0 none
        [ .mk "from" "from" 0 0 none [],
          .mk "dotted_name" "c" 0 0 (some "module_name")
            [ .mk "identifier" "c" 0 0 none [] ],
          .mk "import" "import" 0 0 none [],
          .mk "dotted_name" "Hidden" 0 0 (some "name")
            [ .mk "identifier" "Hidden" 0 0 none [] ] ] ]

/-- C2, counterexample: resolving the Python import of Hidden emits
imports edges (10 → 11) although the stored target node 11 has
exported = false — the Python import resolver never checks the exported
flag, so the claim that an edge is emitted only when the target is
exported is false for Python imports.  (The edge is even emitted twice:
the from-import loop of the source re-extracts the name-field
identifiers once per dotted_name child.) -/
theorem python_import_exported_counterexample :
    resolveEdges pyImportTree "b.py" [⟨10, c2BENode⟩] c2Db
        = [⟨10, 11, "imports"⟩, ⟨10, 11, "imports"⟩]
      ∧ (⟨11, c2HiddenENode⟩ : DBNode) ∈ c2Db.nodes
      ∧ c2HiddenENode.name = "Hidden"
      ∧ c2HiddenENode.exported = false := by
  refine ⟨?_, by decide, by decide, by decide⟩
  simp [resolveEdges, extname, splitOnChar, tsExtensions, resolvePythonEdges,
    resolvePythonEdgesList, resolvePythonImport, pythonImportNames,
    extractPythonImportedNames, extractPythonImportedNamesList,
    childForFieldName, getAllNodes, sortBy, insertSortedBy, nodeRowLe, strLt,
    charListLt, c2Db, c2BENode, c2HiddenENode, pyImportTree, TSNode.ty,
    TSNode.children, TSNode.field, TSNode.text, resolvePythonClassHeritage]

/-- C2, amended: an imports edge is emitted per imported name exactly
from the first exported node of the importing file (none exported — no
edges at all); the target is the first store node with the same name in
a different file, which must additionally be exported for TypeScript
imports — the Python resolver omits the exported requirement. -/
theorem import_edge_conditions (n : TSNode) (fp : String)
    (fileNodes allNodes : List DBNode) :
    (∀ e ∈ resolveImport n fp fileNodes allNodes,
        e.relation = "imports"
          ∧ (∃ src ∈ fileNodes, fileNodes.find? (fun x => x.e.exported) = some src
              ∧ src.e.exported = true ∧ e.source_node_id = src.id)
          ∧ (∃ nm ∈ importClauseNames n, ∃ tgt ∈ allNodes,
              e.target_node_id = tgt.id ∧ tgt.e.name = nm
                ∧ tgt.e.exported = true ∧ tgt.e.file_path ≠ fp))
      ∧ (∀ e ∈ resolvePythonImport n fp fileNodes allNodes,
          e.relation = "imports"
            ∧ (∃ src ∈ fileNodes, fileNodes.find? (fun x => x.e.exported) = some src
                ∧ src.e.exported = true ∧ e.source_node_id = src.id)
            ∧ (∃ nm ∈ pythonImportNames n, ∃ tgt ∈ allNodes,
                e.target_node_id = tgt.id ∧ tgt.e.name = nm
                  ∧ tgt.e.file_path ≠ fp))
      ∧ ((∀ x ∈ fileNodes, x.e.exported = false) →
          resolveImport n fp fileNodes allNodes = []
            ∧ resolvePythonImport n fp fileNodes allNodes = []) := by
  refine ⟨?_, ?_, ?_⟩
  · intro e he
    rcases List.mem_filterMap.mp he with ⟨nm, hnm, hg⟩
    cases hsrc : fileNodes.find? (fun x => x.e.exported) with
    | none => rw [hsrc] at hg; cases hg
    | some src =>
      rw [hsrc] at hg
      cases htgt : allNodes.find? (fun t =>
          t.e.name == nm && t.e.exported && !(t.e.file_path == fp)) with
      | none => rw [htgt] at hg; cases hg
      | some tgt =>
        rw [htgt] at hg
        cases hg
        have hsp := List.find?_some hsrc
        have htp := List.find?_some htgt
        simp only [Bool.and_eq_true, beq_iff_eq, Bool.not_eq_true',
          beq_eq_false_iff_ne] at htp
        refine ⟨rfl,
          ⟨src, List.mem_of_find?_eq_some hsrc, rfl, hsp, rfl⟩,
          ⟨nm, hnm, tgt, List.mem_of_find?_eq_some htgt, rfl,
            htp.1.1, htp.1.2, htp.2⟩⟩
  · intro e he
    rcases List.mem_filterMap.mp he with ⟨nm, hnm, hg⟩
    cases hsrc : fileNodes.find? (fun x => x.e.exported) with
    | none => rw [hsrc] at hg; cases hg
    | some src =>
      rw [hsrc] at hg
      cases htgt : allNodes.find? (fun t =>
          t.e.name == nm && !(t.e.file_path == fp)) with
      | none => rw [htgt] at hg; cases hg
      | some tgt =>
        rw [htgt] at hg
        cases hg
        have hsp := List.find?_some hsrc
        have htp := List.find?_some htgt
        simp only [Bool.and_eq_true, beq_iff_eq, Bool.not_eq_true',
          beq_eq_false_iff_ne] at htp
        refine ⟨rfl,
          ⟨src, List.mem_of_find?_eq_some hsrc, rfl, hsp, rfl⟩,
          ⟨nm, hnm, tgt, List.mem_of_find?_eq_some htgt, rfl, htp.1, htp.2⟩⟩
  · intro hnone
    have hfind : fileNodes.find? (fun x => x.e.exported) = none := by
      rw [List.find?_eq_none]
      intro x hx
      simp [hnone x hx]
    constructor
    · rw [resolveImport, List.filterMap_eq_nil_iff]
      intro nm _
      rw [hfind]
    · rw [resolvePythonImport, List.filterMap_eq_nil_iff]
      intro nm _
      rw [hfind]

/-- The TypeScript import tree of a.ts: import B from b. -/
def tsImportTree : TSNode :=
  .mk "import_statement" "import B from b" 0 0 none
    [ .mk "import" "import" 0 0 none [],
      .mk "import_clause" "B" 0 0 none
        [ .mk "identifier" "B" 0 0 none [] ] ]

/-- An exported node of the importing file a.ts. -/
def c2AENode : ENode :=
  { file_path := "a.ts", name := "A", kind := "class", start_line := 1,
    end_line := 1, signature := none, doc_comment := none, exported := true }

/-- The exported store node B in another file. -/
def c2TargetENode : ENode :=
  { file_path := "b.ts", name := "B", kind := "class", start_line := 1,
    end_line := 1, signature := none, doc_comment := none, exported := true }

/-- C2 witness: on the concrete TypeScript import, the emitted edge
satisfies every condition of the amended statement. -/
theorem import_edge_conditions_witness :
    (⟨20, 21, "imports"⟩ : EEdge)
        ∈ resolveImport tsImportTree "a.ts" [⟨20, c2AENode⟩] [⟨21, c2TargetENode⟩]
      ∧ ((⟨20, 21, "imports"⟩ : EEdge).relation = "imports"
          ∧ (∃ src ∈ [(⟨20, c2AENode⟩ : DBNode)],
              [(⟨20, c2AENode⟩ : DBNode)].find? (fun x => x.e.exported) = some src
                ∧ src.e.exported = true
                ∧ (⟨20, 21, "imports"⟩ : EEdge).source_node_id = src.id)
          ∧ (∃ nm ∈ importClauseNames tsImportTree,
              ∃ tgt ∈ [(⟨21, c2TargetENode⟩ : DBNode)],
                (⟨20, 21, "imports"⟩ : EEdge).target_node_id = tgt.id
                  ∧ tgt.e.name = nm ∧ tgt.e.exported = true
                  ∧ tgt.e.file_path ≠ "a.ts")) := by
  have h := import_edge_conditions tsImportTree "a.ts"
    [(⟨20, c2AENode⟩ : DBNode)] [(⟨21, c2TargetENode⟩ : DBNode)]
  have hmem : (⟨20, 21, "imports"⟩ : EEdge)
      ∈ resolveImport tsImportTree "a.ts" [⟨20, c2AENode⟩] [⟨21, c2TargetENode⟩] := by
    simp [resolveImport, importClauseNames, extractImportedNames,
      extractImportedNamesList, tsImportTree, c2AENode, c2TargetENode,
      TSNode.ty, TSNode.children, TSNode.text]
  exact ⟨hmem, h.1 _ hmem⟩

/-! ## Claim C8: the parse entry point (src/core/parser.ts) -/

/-- The parser module state: the initialization flag and the two
optional underlying parsers, each modelled as a function from content to
a tree or a raised error. -/
structure ParserState where
  parserInitialized : Bool
  tsParser : Option (String → Except String TSNode)
  pyParser : Option (String → Except String TSNode)

/-- `isSupportedExtension` -/
def isSupportedExtension (ext : String) : Bool :=
  [".ts", ".tsx", ".js", ".jsx", ".py"].contains ext

/-- `parseFile`: throws when called before initParsers completes;
afterwards the whole dispatch runs inside a try whose catch logs and
returns null (so a missing parser object or a parser-level raise yields
null); an extension outside both grammars falls through to null. -/
def parseFile (st : ParserState) (content ext : String) :
    Except String (Option TSNode) :=
  if !st.parserInitialized then
    .error "Parsers not initialized. Call initParsers() first."
  else if tsExtensions.contains ext then
    match st.tsParser with
    | none => .ok none
    | some p =>
      match p content with
      | .ok tree => .ok (some tree)
      | .error _ => .ok none
  else if ext == ".py" then
    match st.pyParser with
    | none => .ok none
    | some p =>
      match p content with
      | .ok tree => .ok (some tree)
      | .error _ => .ok none
  else .ok none

/-- C8: parseFile throws before initialization; after initialization it
returns null for every unsupported extension, and a parser-level raise
on a supported extension is swallowed into null instead of propagating. -/
theorem parseFile_contract (st : ParserState) (content ext : String) :
    (st.parserInitialized = false →
        parseFile st content ext
          = Except.error "Parsers not initialized. Call initParsers() first.")
      ∧ (st.parserInitialized = true → isSupportedExtension ext = false →
          parseFile st content ext = Except.ok none)
      ∧ (∀ p err, st.parserInitialized = true → tsExtensions.contains ext = true →
          st.tsParser = some p → p content = Except.error err →
          parseFile st content ext = Except.ok none)
      ∧ (∀ p err, st.parserInitialized = true → ext = ".py" →
          st.pyParser = some p → p content = Except.error err →
          parseFile st content ext = Except.ok none) := by
  refine ⟨?_, ?_, ?_, ?_⟩
  · intro h
    simp [parseFile, h]
  · intro h1 h2
    simp [isSupportedExtension] at h2
    have hts : tsExtensions.contains ext = false := by simp [tsExtensions, h2]
    have hpy : (ext == ".py") = false := by simp [h2]
    unfold parseFile
    rw [h1, hts, hpy]
    simp
  · intro p err h1 h2 h3 h4
    unfold parseFile
    rw [h1, h2, h3]
    simp [h4]
  · intro p err h1 h2 h3 h4
    subst h2
    unfold parseFile
    rw [h1, h3]
    simp [tsExtensions, h4]

/-- An always-raising underlying parser. -/
def raisingParser : String → Except String TSNode := fun _ => Except.error "boom"

/-- The initialized parser state whose underlying parsers always raise. -/
def raisingParserState : ParserState := ⟨true, some raisingParser, some raisingParser⟩

/-- C8 witness: the three behaviors at concrete states and extensions. -/
theorem parseFile_contract_witness :
    parseFile ⟨false, none, none⟩ "x" ".ts"
        = Except.error "Parsers not initialized. Call initParsers() first."
      ∧ parseFile raisingParserState "x" ".md" = Except.ok none
      ∧ parseFile raisingParserState "x" ".ts" = Except.ok none
      ∧ parseFile raisingParserState "x" ".py" = Except.ok none := by
  refine ⟨(parseFile_contract ⟨false, none, none⟩ "x" ".ts").1 rfl,
    (parseFile_contract raisingParserState "x" ".md").2.1 rfl (by decide),
    (parseFile_contract raisingParserState "x" ".ts").2.2.1 raisingParser "boom"
      rfl (by decide) rfl rfl,
    (parseFile_contract raisingParserState "x" ".py").2.2.2 raisingParser "boom"
      rfl rfl rfl rfl⟩

/-! ## Claim C9: the debounced watcher state machine
(src/observer/watcher.ts) -/

/-- MEMORY_BANK_UPDATE_THRESHOLD -/
def MEMORY_BANK_UPDATE_THRESHOLD : Nat := 5

/-- MEMORY_BANK_UPDATE_DEBOUNCE_MS (30 seconds) -/
def MEMORY_BANK_UPDATE_DEBOUNCE_MS : Nat := 30000

/-- The watcher module state: the pending change counter and the armed
debounce timer (recorded with its duration); none stands for no pending
timer. -/
structure WatcherState where
  pendingChanges : Nat
  memoryBankUpdateTimer : Option Nat
deriving Repr, DecidableEq

/-- `executeMemoryBankUpdate`: a no-op at zero pending changes,
otherwise the regeneration runs (the returned Bool) and counter and
timer reset. -/
def executeMemoryBankUpdate (s : WatcherState) : WatcherState × Bool :=
  if s.pendingChanges == 0 then (s, false)
  else (⟨0, none⟩, true)

/-- `scheduleMemoryBankUpdate`: increment the counter, clear any armed
timer, fire immediately at the threshold, otherwise re-arm the 30 s
debounce timer. -/
def scheduleMemoryBankUpdate (s : WatcherState) : WatcherState × Bool :=
  let p := s.pendingChanges + 1
  if MEMORY_BANK_UPDATE_THRESHOLD ≤ p then
    executeMemoryBankUpdate ⟨p, none⟩
  else (⟨p, some MEMORY_BANK_UPDATE_DEBOUNCE_MS⟩, false)

/-- The debounce timeout callback: an armed timer elapsing runs the
update only when at least one change is still pending. -/
def timerFire (s : WatcherState) : WatcherState × Bool :=
  match s.memoryBankUpdateTimer with
  | none => (s, false)
  | some _ =>
    if 0 < s.pendingChanges then executeMemoryBankUpdate ⟨s.pendingChanges, none⟩
    else (⟨s.pendingChanges, none⟩, false)

/-- The two events driving the state machine: a successful
add/change/delete mutation, and the debounce timeout elapsing. -/
inductive WatcherEvent where
  | mutation
  | timerExpire
deriving Repr, DecidableEq

/-- One step of the watcher state machine. -/
def watcherStep (s : WatcherState) : WatcherEvent → WatcherState × Bool
  | .mutation => scheduleMemoryBankUpdate s
  | .timerExpire => timerFire s

/-- Run a list of events. -/
def watcherRun (s : WatcherState) : List WatcherEvent → WatcherState
  | [] => s
  | e :: rest => watcherRun (watcherStep s e).1 rest

/-- The initial module state. -/
def watcherInit : WatcherState := ⟨0, none⟩

/-- The inductive invariant of the machine. -/
def WatcherInv (s : WatcherState) : Prop :=
  s.pendingChanges < MEMORY_BANK_UPDATE_THRESHOLD
    ∧ (s.memoryBankUpdateTimer = none
        ∨ s.memoryBankUpdateTimer = some MEMORY_BANK_UPDATE_DEBOUNCE_MS)
    ∧ (s.memoryBankUpdateTimer ≠ none → 0 < s.pendingChanges)

/-- Every step preserves the invariant. -/
theorem watcherStep_inv (s : WatcherState) (e : WatcherEvent)
    (h : WatcherInv s) : WatcherInv (watcherStep s e).1 := by
  obtain ⟨h1, h2, h3⟩ := h
  cases e with
  | mutation =>
    show WatcherInv (scheduleMemoryBankUpdate s).1
    rw [scheduleMemoryBankUpdate]
    by_cases hth : MEMORY_BANK_UPDATE_THRESHOLD ≤ s.pendingChanges + 1
    · rw [if_pos hth]
      rw [executeMemoryBankUpdate]
      have : ((⟨s.pendingChanges + 1, none⟩ : WatcherState).pendingChanges == 0)
          = false := by simp
      rw [this]
      exact ⟨by simp [MEMORY_BANK_UPDATE_THRESHOLD], Or.inl rfl, by simp⟩
    · rw [if_neg hth]
      refine ⟨?_, Or.inr rfl, fun _ => by simp⟩
      simp only [MEMORY_BANK_UPDATE_THRESHOLD] at hth ⊢
      omega
  | timerExpire =>
    show WatcherInv (timerFire s).1
    rw [timerFire]
    cases ht : s.memoryBankUpdateTimer with
    | none => exact ⟨h1, h2, h3⟩
    | some d =>
      by_cases hp : 0 < s.pendingChanges
      · rw [if_pos hp]
        rw [executeMemoryBankUpdate]
        have : ((⟨s.pendingChanges, none⟩ : WatcherState).pendingChanges == 0)
            = false := by simp; omega
        rw [this]
        exact ⟨by simp [MEMORY_BANK_UPDATE_THRESHOLD], Or.inl rfl, by simp⟩
      · rw [if_neg hp]
        exact ⟨h1, Or.inl rfl, by simp⟩

/-- The invariant holds in every reachable state. -/
theorem watcherRun_inv (evs : List WatcherEvent) :
    WatcherInv (watcherRun watcherInit evs) := by
  have base : WatcherInv watcherInit := by
    refine ⟨by simp [watcherInit, MEMORY_BANK_UPDATE_THRESHOLD], Or.inl rfl, ?_⟩
    intro h
    simp [watcherInit] at h
  suffices h : ∀ (evs : List WatcherEvent) (s : WatcherState), WatcherInv s →
      WatcherInv (watcherRun s evs) from h evs watcherInit base
  intro evs
  induction evs with
  | nil => intro s hs; exact hs
  | cons e rest ih =>
    intro s hs
    exact ih _ (watcherStep_inv s e hs)

/-- C9: in every reachable state the pending counter stays below the
threshold 5 and any armed timer is the 30 s debounce; a mutation fires
the regeneration exactly when the incremented counter reaches the
threshold and then resets counter and timer; an elapsing timer fires
only with a positive pending count; every fire resets the counter to
zero — in particular regeneration never fires with a zero pending
count and the counter never exceeds the threshold. -/
theorem watcher_debounce_state_machine (evs : List WatcherEvent) :
    (watcherRun watcherInit evs).pendingChanges < MEMORY_BANK_UPDATE_THRESHOLD
      ∧ ((watcherRun watcherInit evs).memoryBankUpdateTimer = none
          ∨ (watcherRun watcherInit evs).memoryBankUpdateTimer
              = some MEMORY_BANK_UPDATE_DEBOUNCE_MS)
      ∧ (∀ s : WatcherState,
          ((scheduleMemoryBankUpdate s).2 = true ↔
            MEMORY_BANK_UPDATE_THRESHOLD ≤ s.pendingChanges + 1)
          ∧ ((scheduleMemoryBankUpdate s).2 = true →
              (scheduleMemoryBankUpdate s).1 = ⟨0, none⟩)
          ∧ ((timerFire s).2 = true →
              0 < s.pendingChanges ∧ (timerFire s).1 = ⟨0, none⟩)) := by
  obtain ⟨h1, h2, _⟩ := watcherRun_inv evs
  refine ⟨h1, h2, ?_⟩
  intro s
  refine ⟨?_, ?_, ?_⟩
  · rw [scheduleMemoryBankUpdate]
    by_cases hth : MEMORY_BANK_UPDATE_THRESHOLD ≤ s.pendingChanges + 1
    · rw [if_pos hth, executeMemoryBankUpdate]
      have hz : ((⟨s.pendingChanges + 1, none⟩ : WatcherState).pendingChanges == 0)
          = false := by simp
      rw [hz]
      simp [hth]
    · rw [if_neg hth]
      simp [hth]
  · intro hf
    rw [scheduleMemoryBankUpdate] at hf ⊢
    by_cases hth : MEMORY_BANK_UPDATE_THRESHOLD ≤ s.pendingChanges + 1
    · rw [if_pos hth] at hf ⊢
      rw [executeMemoryBankUpdate] at hf ⊢
      have hz : ((⟨s.pendingChanges + 1, none⟩ : WatcherState).pendingChanges == 0)
          = false := by simp
      rw [hz] at hf ⊢
      simp
    · rw [if_neg hth] at hf
      cases hf
  · intro hf
    rw [timerFire] at hf ⊢
    cases ht : s.memoryBankUpdateTimer with
    | none =>
      rw [ht] at hf
      exact Bool.noConfusion hf
    | some d =>
      rw [ht] at hf
      by_cases hp : 0 < s.pendingChanges
      · rw [if_pos hp] at hf ⊢
        rw [executeMemoryBankUpdate] at hf ⊢
        have hz : ((⟨s.pendingChanges, none⟩ : WatcherState).pendingChanges == 0)
            = false := by simp; omega
        rw [hz] at hf ⊢
        exact ⟨hp, by simp⟩
      · rw [if_neg hp] at hf
        exact Bool.noConfusion hf

/-- C9 witness: four mutations leave the counter at 4; the fifth fires
and resets; an armed timer with pending changes fires and resets. -/
theorem watcher_debounce_state_machine_witness :
    (watcherRun watcherInit [.mutation, .mutation, .mutation, .mutation]).pendingChanges
        < MEMORY_BANK_UPDATE_THRESHOLD
      ∧ (scheduleMemoryBankUpdate ⟨4, none⟩).1 = ⟨0, none⟩
      ∧ (0 < (⟨1, some 30000⟩ : WatcherState).pendingChanges
          ∧ (timerFire ⟨1, some 30000⟩).1 = ⟨0, none⟩) := by
  refine ⟨(watcher_debounce_state_machine
      [.mutation, .mutation, .mutation, .mutation]).1, ?_, ?_⟩
  · exact ((watcher_debounce_state_machine []).2.2 ⟨4, none⟩).2.1 (by decide)
  · exact ((watcher_debounce_state_machine []).2.2 ⟨1, some 30000⟩).2.2 (by decide)

/-! ## Claim C6: the indexing orchestrator (arbokInit in src/mcp/tools.ts)

A project file carries the relative path under which it is indexed, its
content, and its (deterministic) parse result — none when the parse
fails or the extension has no grammar.  Parsing the same unchanged
content is deterministic, so both passes and both runs see the same
tree.  The uuid supply of a run is modelled as a counter k: node and
edge rows receive the ids k, k+1, ... in creation order, and two runs
may start from arbitrary different counters. -/

/-- A source file of the scanned project. -/
structure PFile where
  relPath : String
  content : String
  tree : Option TSNode

/-- Attach the sequential uuid draws of a run to extracted records. -/
def assignIds (k : Nat) : List ENode → List DBNode
  | [] => []
  | e :: rest => ⟨k, e⟩ :: assignIds (k + 1) rest

/-- Attach the sequential uuid draws of a run to resolved edges. -/
def assignEdgeIds (k : Nat) : List EEdge → List DBEdge
  | [] => []
  | e :: rest =>
    ⟨k, e.source_node_id, e.target_node_id, e.relation⟩ :: assignEdgeIds (k + 1) rest

/-- The pass-1 record of a file that produced nodes: pushed onto
allFileNodes for pass 2. -/
structure FileData where
  file : PFile
  nodes : List DBNode

/-- Pass 1 for one file: skip unsupported extensions and parse
failures; extract; insert and collect when at least one node came out;
a throwing insert is caught and the file skipped (the uuids were drawn
before the insert, so the counter advances regardless). -/
def pass1Step (db : DB) (k : Nat) (f : PFile) : DB × Nat × Option FileData :=
  if isSupportedExtension (extname f.relPath) = false then (db, k, none)
  else
    match f.tree with
    | none => (db, k, none)
    | some t =>
      let ens := extractNodes t f.relPath f.content
      if ens.isEmpty then (db, k, none)
      else
        let dbns := assignIds k ens
        match insertNodes db dbns with
        | .ok db2 => (db2, k + ens.length, some ⟨f, dbns⟩)
        | .error _ => (db, k + ens.length, none)

/-- Pass 1 over the whole file list. -/
def pass1 (db : DB) (k : Nat) : List PFile → DB × Nat × List FileData
  | [] => (db, k, [])
  | f :: rest =>
    match pass1Step db k f with
    | (db2, k2, fd?) =>
      match pass1 db2 k2 rest with
      | (db3, k3, fds) => (db3, k3, fd?.toList ++ fds)

/-- Pass 2 for one collected file: re-parse (the same tree), resolve
edges against the full store, insert when at least one edge came out;
a throwing insert is caught and the file skipped. -/
def pass2Step (db : DB) (k : Nat) (fd : FileData) : DB × Nat :=
  match fd.file.tree with
  | none => (db, k)
  | some t =>
    let ees := resolveEdges t fd.file.relPath fd.nodes db
    if ees.isEmpty then (db, k)
    else
      let des := assignEdgeIds k ees
      match insertEdges db des with
      | .ok db2 => (db2, k + ees.length)
      | .error _ => (db, k + ees.length)

/-- Pass 2 over the collected files. -/
def pass2 (db : DB) (k : Nat) : List FileData → DB × Nat
  | [] => (db, k)
  | fd :: rest =>
    match pass2Step db k fd with
    | (db2, k2) => pass2 db2 k2 rest

/-- `arbokInit`: clear the store, run pass 1 and then pass 2. -/
def arbokInit (files : List PFile) (db : DB) (k : Nat) : DB × Nat :=
  let db0 := clearDatabase db
  match pass1 db0 k files with
  | (db1, k1, fds) => pass2 db1 k1 fds

/-- The erasure of a store to what is observable without ids. -/
def nodesE (db : DB) : List ENode := db.nodes.map DBNode.e

/-- A successful single node insert appends the row. -/
theorem insertNode_ok_shape {db db2 : DB} {n : DBNode}
    (h : insertNode db n = Except.ok db2) :
    db2 = ⟨db.nodes ++ [n], db.edges⟩ := by
  unfold insertNode at h
  by_cases h1 : (db.nodes.any fun x => x.id == n.id) = true
  · rw [if_pos h1] at h; cases h
  · rw [if_neg h1] at h
    by_cases h2 : (!nodeKinds.contains n.e.kind) = true
    · rw [if_pos h2] at h; cases h
    · rw [if_neg h2] at h
      cases h
      rfl

/-- The length of an id assignment. -/
theorem assignIds_length (k : Nat) (ens : List ENode) :
    (assignIds k ens).length = ens.length := by
  induction ens generalizing k with
  | nil => rfl
  | cons e rest ih => simp [assignIds, ih]

/-- The erasure of an id assignment. -/
theorem assignIds_map_e (k : Nat) (ens : List ENode) :
    (assignIds k ens).map DBNode.e = ens := by
  induction ens generalizing k with
  | nil => rfl
  | cons e rest ih => simp [assignIds, ih]

/-- Bulk node insert of fresh sequential ids: both runs succeed or both
fail at the same CHECK, and on success the rows are appended. -/
theorem insertNodes_assign_parity (ens : List ENode) :
    ∀ (db1 db2 : DB) (k1 k2 : Nat), nodesE db1 = nodesE db2 →
      (∀ n ∈ db1.nodes, n.id < k1) → (∀ n ∈ db2.nodes, n.id < k2) →
      ((∃ m, insertNodes db1 (assignIds k1 ens) = Except.error m)
          ∧ (∃ m, insertNodes db2 (assignIds k2 ens) = Except.error m))
        ∨ (insertNodes db1 (assignIds k1 ens)
              = Except.ok ⟨db1.nodes ++ assignIds k1 ens, db1.edges⟩
            ∧ insertNodes db2 (assignIds k2 ens)
              = Except.ok ⟨db2.nodes ++ assignIds k2 ens, db2.edges⟩) := by
  induction ens with
  | nil =>
    intro db1 db2 k1 k2 he hf1 hf2
    right
    constructor
    · show insertNodes db1 (assignIds k1 []) = _
      simp only [assignIds, List.append_nil]
      rfl
    · show insertNodes db2 (assignIds k2 []) = _
      simp only [assignIds, List.append_nil]
      rfl
  | cons e rest ih =>
    intro db1 db2 k1 k2 he hf1 hf2
    have hpk1 : (db1.nodes.any fun x => x.id == k1) = false := by
      rw [List.any_eq_false]
      intro x hx
      simp only [beq_iff_eq]
      exact Nat.ne_of_lt (hf1 x hx)
    have hpk2 : (db2.nodes.any fun x => x.id == k2) = false := by
      rw [List.any_eq_false]
      intro x hx
      simp only [beq_iff_eq]
      exact Nat.ne_of_lt (hf2 x hx)
    by_cases hkind : (!nodeKinds.contains e.kind) = true
    · left
      constructor
      · refine ⟨"CHECK constraint failed: kind", ?_⟩
        simp only [insertNodes, assignIds, List.foldlM_cons]
        have : insertNode db1 ⟨k1, e⟩ = Except.error "CHECK constraint failed: kind" := by
          unfold insertNode
          rw [hpk1]
          simp only [Bool.false_eq_true, if_false]
          rw [if_pos hkind]
        rw [this]
        rfl
      · refine ⟨"CHECK constraint failed: kind", ?_⟩
        simp only [insertNodes, assignIds, List.foldlM_cons]
        have : insertNode db2 ⟨k2, e⟩ = Except.error "CHECK constraint failed: kind" := by
          unfold insertNode
          rw [hpk2]
          simp only [Bool.false_eq_true, if_false]
          rw [if_pos hkind]
        rw [this]
        rfl
    · have hok1 : insertNode db1 ⟨k1, e⟩ = Except.ok ⟨db1.nodes ++ [⟨k1, e⟩], db1.edges⟩ := by
        unfold insertNode
        rw [hpk1]
        simp only [Bool.false_eq_true, if_false]
        rw [if_neg hkind]
      have hok2 : insertNode db2 ⟨k2, e⟩ = Except.ok ⟨db2.nodes ++ [⟨k2, e⟩], db2.edges⟩ := by
        unfold insertNode
        rw [hpk2]
        simp only [Bool.false_eq_true, if_false]
        rw [if_neg hkind]
      have he2 : nodesE ⟨db1.nodes ++ [⟨k1, e⟩], db1.edges⟩
          = nodesE ⟨db2.nodes ++ [⟨k2, e⟩], db2.edges⟩ := by
        simp [nodesE] at he ⊢
        exact he
      have hf1b : ∀ n ∈ (⟨db1.nodes ++ [⟨k1, e⟩], db1.edges⟩ : DB).nodes, n.id < k1 + 1 := by
        intro n hn
        rcases List.mem_append.mp hn with h | h
        · exact Nat.lt_succ_of_lt (hf1 n h)
        · simp at h
          subst h
          exact Nat.lt_succ_self k1
      have hf2b : ∀ n ∈ (⟨db2.nodes ++ [⟨k2, e⟩], db2.edges⟩ : DB).nodes, n.id < k2 + 1 := by
        intro n hn
        rcases List.mem_append.mp hn with h | h
        · exact Nat.lt_succ_of_lt (hf2 n h)
        · simp at h
          subst h
          exact Nat.lt_succ_self k2
      have step1 : insertNodes db1 (assignIds k1 (e :: rest))
          = insertNodes ⟨db1.nodes ++ [⟨k1, e⟩], db1.edges⟩ (assignIds (k1 + 1) rest) := by
        simp only [insertNodes, assignIds, List.foldlM_cons, hok1]
        rfl
      have step2 : insertNodes db2 (assignIds k2 (e :: rest))
          = insertNodes ⟨db2.nodes ++ [⟨k2, e⟩], db2.edges⟩ (assignIds (k2 + 1) rest) := by
        simp only [insertNodes, assignIds, List.foldlM_cons, hok2]
        rfl
      rcases ih ⟨db1.nodes ++ [⟨k1, e⟩], db1.edges⟩ ⟨db2.nodes ++ [⟨k2, e⟩], db2.edges⟩
          (k1 + 1) (k2 + 1) he2 hf1b hf2b with ⟨⟨m1, hm1⟩, ⟨m2, hm2⟩⟩ | ⟨hr1, hr2⟩
      · left
        exact ⟨⟨m1, by rw [step1]; exact hm1⟩, ⟨m2, by rw [step2]; exact hm2⟩⟩
      · right
        constructor
        · rw [step1, hr1]
          simp [assignIds]
        · rw [step2, hr2]
          simp [assignIds]

/-- The length of an edge id assignment. -/
theorem assignEdgeIds_length (k : Nat) (ees : List EEdge) :
    (assignEdgeIds k ees).length = ees.length := by
  induction ees generalizing k with
  | nil => rfl
  | cons e rest ih => simp [assignEdgeIds, ih]

/-- Bulk edge insert of fresh sequential ids whose endpoints exist and
whose relations pass the CHECK succeeds and appends the rows. -/
theorem insertEdges_assign_ok (ees : List EEdge) :
    ∀ (db : DB) (k : Nat),
      (∀ x ∈ db.edges, x.id < k) →
      (∀ e ∈ ees, (∃ n ∈ db.nodes, e.source_node_id = n.id)
        ∧ (∃ n ∈ db.nodes, e.target_node_id = n.id)
        ∧ edgeRelations.contains e.relation = true) →
      insertEdges db (assignEdgeIds k ees)
        = Except.ok ⟨db.nodes, db.edges ++ assignEdgeIds k ees⟩ := by
  induction ees with
  | nil =>
    intro db k hf hv
    show insertEdges db (assignEdgeIds k []) = _
    simp only [assignEdgeIds, List.append_nil]
    rfl
  | cons e rest ih =>
    intro db k hf hv
    obtain ⟨⟨ns, hns, hsrc⟩, ⟨nt, hnt, htgt⟩, hrel⟩ := hv e (by simp)
    have hpk : (db.edges.any fun x => x.id == k) = false := by
      rw [List.any_eq_false]
      intro x hx
      simp only [beq_iff_eq]
      exact Nat.ne_of_lt (hf x hx)
    have hsa : (db.nodes.any fun n => n.id == e.source_node_id) = true :=
      List.any_eq_true.mpr ⟨ns, hns, by simp [hsrc]⟩
    have hta : (db.nodes.any fun n => n.id == e.target_node_id) = true :=
      List.any_eq_true.mpr ⟨nt, hnt, by simp [htgt]⟩
    have hok : insertEdge db ⟨k, e.source_node_id, e.target_node_id, e.relation⟩
        = Except.ok ⟨db.nodes,
            db.edges ++ [⟨k, e.source_node_id, e.target_node_id, e.relation⟩]⟩ := by
      unfold insertEdge
      rw [hpk]
      simp only [Bool.false_eq_true, if_false]
      rw [hrel]
      simp only [Bool.not_true, Bool.false_eq_true, if_false]
      rw [hsa, hta]
      simp
    have hstep : insertEdges db (assignEdgeIds k (e :: rest))
        = insertEdges
            ⟨db.nodes, db.edges ++ [⟨k, e.source_node_id, e.target_node_id, e.relation⟩]⟩
            (assignEdgeIds (k + 1) rest) := by
      simp only [insertEdges, assignEdgeIds, List.foldlM_cons, hok]
      rfl
    rw [hstep, ih _ (k + 1) ?_ ?_]
    · simp [assignEdgeIds]
    · intro x hx
      rcases List.mem_append.mp hx with h | h
      · exact Nat.lt_succ_of_lt (hf x h)
      · simp at h
        subst h
        exact Nat.lt_succ_self k
    · intro x hx
      exact hv x (by simp [hx])

/-- Two partial maps with pointwise-equal definedness give
filterMap results of equal length. -/
theorem filterMap_length_congr {α β : Type} {g1 g2 : α → Option β}
    (l : List α) (h : ∀ a ∈ l, (g1 a).isSome = (g2 a).isSome) :
    (l.filterMap g1).length = (l.filterMap g2).length := by
  induction l with
  | nil => rfl
  | cons a rest ih =>
    have ha := h a (by simp)
    rw [List.filterMap_cons, List.filterMap_cons]
    cases hg1 : g1 a with
    | none =>
      cases hg2 : g2 a with
      | none => exact ih (fun x hx => h x (by simp [hx]))
      | some b => rw [hg1, hg2] at ha; simp at ha
    | some b =>
      cases hg2 : g2 a with
      | none => rw [hg1, hg2] at ha; simp at ha
      | some b2 => simp [ih (fun x hx => h x (by simp [hx]))]

/-- Two list-valued maps with pointwise-equal result lengths give
flatMap results of equal length. -/
theorem flatMap_length_congr {α β : Type} {g1 g2 : α → List β}
    (l : List α) (h : ∀ a ∈ l, (g1 a).length = (g2 a).length) :
    (l.flatMap g1).length = (l.flatMap g2).length := by
  induction l with
  | nil => rfl
  | cons a rest ih =>
    simp only [List.flatMap_cons, List.length_append]
    rw [h a (by simp), ih (fun x hx => h x (by simp [hx]))]

/-- find? with a predicate on the erasure, over lists with equal
erasures: the found elements have equal erasures (the ids may differ). -/
theorem find?_proj_congr (q : ENode → Bool) :
    ∀ {l1 l2 : List DBNode}, l1.map DBNode.e = l2.map DBNode.e →
      Option.map DBNode.e (l1.find? (fun n => q n.e))
          = Option.map DBNode.e (l2.find? (fun n => q n.e))
        ∧ (l1.find? (fun n => q n.e)).isSome = (l2.find? (fun n => q n.e)).isSome := by
  intro l1
  induction l1 with
  | nil =>
    intro l2 h
    cases l2 with
    | nil => exact ⟨rfl, rfl⟩
    | cons y ys => simp at h
  | cons x xs ih =>
    intro l2 h
    cases l2 with
    | nil => simp at h
    | cons y ys =>
      simp only [List.map_cons, List.cons.injEq] at h
      obtain ⟨hxy, hrest⟩ := h
      by_cases hq : q x.e = true
      · rw [List.find?_cons_of_pos _ (by simpa using hq),
          List.find?_cons_of_pos _ (by simp [← hxy, hq])]
        exact ⟨by simp [hxy], rfl⟩
      · rw [List.find?_cons_of_neg _ (by simpa using hq),
          List.find?_cons_of_neg _ (by simp [← hxy]; simpa using hq)]
        exact ih hrest

/-- Sorted insertion commutes with erasure equality. -/
theorem insertSortedBy_nodeRow_map_e {x1 x2 : DBNode} (hx : x1.e = x2.e) :
    ∀ {l1 l2 : List DBNode}, l1.map DBNode.e = l2.map DBNode.e →
      (insertSortedBy nodeRowLe x1 l1).map DBNode.e
        = (insertSortedBy nodeRowLe x2 l2).map DBNode.e := by
  intro l1
  induction l1 with
  | nil =>
    intro l2 h
    cases l2 with
    | nil => simp [insertSortedBy, hx]
    | cons z zs => simp at h
  | cons y ys ih =>
    intro l2 h
    cases l2 with
    | nil => simp at h
    | cons z zs =>
      simp only [List.map_cons, List.cons.injEq] at h
      obtain ⟨hyz, hrest⟩ := h
      rw [insertSortedBy, insertSortedBy]
      have hle : nodeRowLe x1 y = nodeRowLe x2 z := by
        rw [nodeRowLe, nodeRowLe, hx, hyz]
      by_cases hc : nodeRowLe x1 y = true
      · rw [if_pos hc, if_pos (hle ▸ hc)]
        simp [hx, hyz, hrest]
      · rw [if_neg hc, if_neg (by rw [← hle]; exact hc)]
        simp only [List.map_cons]
        rw [hyz, ih hrest]

/-- Insertion sort commutes with erasure equality. -/
theorem sortBy_nodeRow_map_e : ∀ {l1 l2 : List DBNode},
    l1.map DBNode.e = l2.map DBNode.e →
    (sortBy nodeRowLe l1).map DBNode.e = (sortBy nodeRowLe l2).map DBNode.e := by
  intro l1
  induction l1 with
  | nil =>
    intro l2 h
    cases l2 with
    | nil => rfl
    | cons z zs => simp at h
  | cons y ys ih =>
    intro l2 h
    cases l2 with
    | nil => simp at h
    | cons z zs =>
      simp only [List.map_cons, List.cons.injEq] at h
      obtain ⟨hyz, hrest⟩ := h
      rw [sortBy, sortBy]
      exact insertSortedBy_nodeRow_map_e hyz (ih hrest)

/-- getAllNodes commutes with erasure equality. -/
theorem getAllNodes_map_e {db1 db2 : DB} (h : nodesE db1 = nodesE db2) :
    (getAllNodes db1).map DBNode.e = (getAllNodes db2).map DBNode.e :=
  sortBy_nodeRow_map_e h

/-- The two optional finds of an import emission have erasure-determined
definedness. -/
theorem resolveImport_length_congr (n : TSNode) (fp : String)
    {fn1 fn2 all1 all2 : List DBNode}
    (hf : fn1.map DBNode.e = fn2.map DBNode.e)
    (ha : all1.map DBNode.e = all2.map DBNode.e) :
    (resolveImport n fp fn1 all1).length = (resolveImport n fp fn2 all2).length := by
  unfold resolveImport
  apply filterMap_length_congr
  intro nm _
  have hsrc := (find?_proj_congr (fun en => en.exported) hf).2
  cases h1 : fn1.find? (fun x => x.e.exported) with
  | none =>
    cases h2 : fn2.find? (fun x => x.e.exported) with
    | none => rfl
    | some s2 => rw [h1, h2] at hsrc; simp at hsrc
  | some s1 =>
    cases h2 : fn2.find? (fun x => x.e.exported) with
    | none => rw [h1, h2] at hsrc; simp at hsrc
    | some s2 =>
      have htgt := (find?_proj_congr
        (fun en => en.name == nm && en.exported && !(en.file_path == fp)) ha).2
      cases h3 : all1.find? (fun t =>
          t.e.name == nm && t.e.exported && !(t.e.file_path == fp)) with
      | none =>
        cases h4 : all2.find? (fun t =>
            t.e.name == nm && t.e.exported && !(t.e.file_path == fp)) with
        | none => rfl
        | some t2 => rw [h3, h4] at htgt; simp at htgt
      | some t1 =>
        cases h4 : all2.find? (fun t =>
            t.e.name == nm && t.e.exported && !(t.e.file_path == fp)) with
        | none => rw [h3, h4] at htgt; simp at htgt
        | some t2 => rfl

/-- Python import emission has erasure-determined definedness. -/
theorem resolvePythonImport_length_congr (n : TSNode) (fp : String)
    {fn1 fn2 all1 all2 : List DBNode}
    (hf : fn1.map DBNode.e = fn2.map DBNode.e)
    (ha : all1.map DBNode.e = all2.map DBNode.e) :
    (resolvePythonImport n fp fn1 all1).length
      = (resolvePythonImport n fp fn2 all2).length := by
  unfold resolvePythonImport
  apply filterMap_length_congr
  intro nm _
  have hsrc := (find?_proj_congr (fun en => en.exported) hf).2
  cases h1 : fn1.find? (fun x => x.e.exported) with
  | none =>
    cases h2 : fn2.find? (fun x => x.e.exported) with
    | none => rfl
    | some s2 => rw [h1, h2] at hsrc; simp at hsrc
  | some s1 =>
    cases h2 : fn2.find? (fun x => x.e.exported) with
    | none => rw [h1, h2] at hsrc; simp at hsrc
    | some s2 =>
      have htgt := (find?_proj_congr
        (fun en => en.name == nm && !(en.file_path == fp)) ha).2
      cases h3 : all1.find? (fun t => t.e.name == nm && !(t.e.file_path == fp)) with
      | none =>
        cases h4 : all2.find? (fun t => t.e.name == nm && !(t.e.file_path == fp)) with
        | none => rfl
        | some t2 => rw [h3, h4] at htgt; simp at htgt
      | some t1 =>
        cases h4 : all2.find? (fun t => t.e.name == nm && !(t.e.file_path == fp)) with
        | none => rw [h3, h4] at htgt; simp at htgt
        | some t2 => rfl

/-- Generic congruence for the emit-if-found pattern: matching on two
finds with the same erasure-predicate over erasure-equal lists gives
results of equal length whenever the two bodies always do. -/
theorem find?_opt_length_congr {l1 l2 : List DBNode} (q : ENode → Bool)
    (h : l1.map DBNode.e = l2.map DBNode.e) (f1 f2 : DBNode → List EEdge)
    (hlen : ∀ t1 t2, (f1 t1).length = (f2 t2).length) :
    (match l1.find? (fun t : DBNode => q t.e) with
      | none => ([] : List EEdge)
      | some tgt => f1 tgt).length
      = (match l2.find? (fun t : DBNode => q t.e) with
        | none => ([] : List EEdge)
        | some tgt => f2 tgt).length := by
  have hs := (find?_proj_congr q h).2
  cases h3 : l1.find? (fun t : DBNode => q t.e) with
  | none =>
    cases h4 : l2.find? (fun t : DBNode => q t.e) with
    | none => rfl
    | some t2 => rw [h3, h4] at hs; simp at hs
  | some t1 =>
    cases h4 : l2.find? (fun t : DBNode => q t.e) with
    | none => rw [h3, h4] at hs; simp at hs
    | some t2 => exact hlen t1 t2

/-- Heritage-clause emission does not depend on the source node and has
erasure-determined definedness in the store list. -/
theorem resolveHeritageClause_length_congr (n : TSNode) (s1 s2 : DBNode)
    {all1 all2 : List DBNode} (ha : all1.map DBNode.e = all2.map DBNode.e) :
    (resolveHeritageClause n s1 all1).length
      = (resolveHeritageClause n s2 all2).length := by
  unfold resolveHeritageClause
  apply flatMap_length_congr
  intro c _
  by_cases h1 : (c.ty == "extends_clause") = true
  · rw [if_pos h1, if_pos h1]
    cases getTypeName c with
    | none => rfl
    | some tn =>
      exact find?_opt_length_congr (fun en => en.name == tn && en.kind == "class") ha
        (fun tgt => [⟨s1.id, tgt.id, "extends"⟩])
        (fun tgt => [⟨s2.id, tgt.id, "extends"⟩])
        (fun t1 t2 => rfl)
  · rw [if_neg h1, if_neg h1]
    by_cases h2 : (c.ty == "implements_clause") = true
    · rw [if_pos h2, if_pos h2]
      cases getTypeName c with
      | none => rfl
      | some tn =>
        exact find?_opt_length_congr (fun en => en.name == tn && en.kind == "interface") ha
          (fun tgt => [⟨s1.id, tgt.id, "implements"⟩])
          (fun tgt => [⟨s2.id, tgt.id, "implements"⟩])
          (fun t1 t2 => rfl)
    · rw [if_neg h2, if_neg h2]

/-- Class-heritage resolution has erasure-determined edge counts. -/
theorem resolveClassHeritage_length_congr (n : TSNode)
    {fn1 fn2 all1 all2 : List DBNode}
    (hf : fn1.map DBNode.e = fn2.map DBNode.e)
    (ha : all1.map DBNode.e = all2.map DBNode.e) :
    (resolveClassHeritage n fn1 all1).length
      = (resolveClassHeritage n fn2 all2).length := by
  unfold resolveClassHeritage
  cases getClassName n with
  | none => rfl
  | some className =>
    exact find?_opt_length_congr (fun en => en.name == className && en.kind == "class") hf
      (fun classNode => (n.children.filter (fun c => c.ty == "class_heritage")).flatMap
        (fun c => resolveHeritageClause c classNode all1))
      (fun classNode => (n.children.filter (fun c => c.ty == "class_heritage")).flatMap
        (fun c => resolveHeritageClause c classNode all2))
      (fun c1 c2 => flatMap_length_congr _
        (fun c _ => resolveHeritageClause_length_congr c c1 c2 ha))

/-- Python class-heritage resolution has erasure-determined edge counts. -/
theorem resolvePythonClassHeritage_length_congr (n : TSNode)
    {fn1 fn2 all1 all2 : List DBNode}
    (hf : fn1.map DBNode.e = fn2.map DBNode.e)
    (ha : all1.map DBNode.e = all2.map DBNode.e) :
    (resolvePythonClassHeritage n fn1 all1).length
      = (resolvePythonClassHeritage n fn2 all2).length := by
  unfold resolvePythonClassHeritage
  cases childForFieldName n "name" with
  | none => rfl
  | some nameNode =>
    cases childForFieldName n "superclasses" with
    | none =>
      exact find?_opt_length_congr
        (fun en => en.name == nameNode.text && en.kind == "class") hf
        (fun _ => []) (fun _ => []) (fun t1 t2 => rfl)
    | some argumentList =>
      exact find?_opt_length_congr
        (fun en => en.name == nameNode.text && en.kind == "class") hf
        (fun classNode => argumentList.children.flatMap (fun c =>
          if c.ty == "identifier" then
            match all1.find? (fun t => t.e.name == c.text && t.e.kind == "class") with
            | none => []
            | some tgt => [⟨classNode.id, tgt.id, "extends"⟩]
          else []))
        (fun classNode => argumentList.children.flatMap (fun c =>
          if c.ty == "identifier" then
            match all2.find? (fun t => t.e.name == c.text && t.e.kind == "class") with
            | none => []
            | some tgt => [⟨classNode.id, tgt.id, "extends"⟩]
          else []))
        (fun c1 c2 => flatMap_length_congr _ (fun c _ => by
          by_cases hid : (c.ty == "identifier") = true
          · rw [if_pos hid, if_pos hid]
            exact find?_opt_length_congr
              (fun en => en.name == c.text && en.kind == "class") ha
              (fun tgt => [⟨c1.id, tgt.id, "extends"⟩])
              (fun tgt => [⟨c2.id, tgt.id, "extends"⟩])
              (fun t1 t2 => rfl)
          · rw [if_neg hid, if_neg hid]))

/-- The child loop of the TypeScript walk preserves length equality. -/
theorem resolveTypeScriptEdgesList_length_congr (fp : String)
    {fn1 fn2 all1 all2 : List DBNode} (cs : List TSNode)
    (ih : ∀ c ∈ cs, (resolveTypeScriptEdges fp fn1 all1 c).length
        = (resolveTypeScriptEdges fp fn2 all2 c).length) :
    (resolveTypeScriptEdgesList fp fn1 all1 cs).length
      = (resolveTypeScriptEdgesList fp fn2 all2 cs).length := by
  induction cs with
  | nil => simp [resolveTypeScriptEdgesList]
  | cons c rest ihl =>
    rw [resolveTypeScriptEdgesList, resolveTypeScriptEdgesList]
    simp only [List.length_append]
    rw [ih c (by simp), ihl (fun x hx => ih x (by simp [hx]))]

/-- The TypeScript edge walk emits an erasure-determined number of
edges. -/
theorem resolveTypeScriptEdges_length_congr (fp : String)
    {fn1 fn2 all1 all2 : List DBNode}
    (hf : fn1.map DBNode.e = fn2.map DBNode.e)
    (ha : all1.map DBNode.e = all2.map DBNode.e) :
    ∀ n, (resolveTypeScriptEdges fp fn1 all1 n).length
      = (resolveTypeScriptEdges fp fn2 all2 n).length := by
  refine TSNode.strongInduction
    (P := fun n => (resolveTypeScriptEdges fp fn1 all1 n).length
      = (resolveTypeScriptEdges fp fn2 all2 n).length) ?_
  intro ty tx sr er f cs ih
  rw [resolveTypeScriptEdges, resolveTypeScriptEdges]
  simp only [List.length_append, TSNode.ty, TSNode.children]
  have hlist := resolveTypeScriptEdgesList_length_congr fp cs ih
  by_cases h1 : (ty == "import_statement") = true
  · rw [if_pos h1, if_pos h1, resolveImport_length_congr _ fp hf ha, hlist]
  · rw [if_neg h1, if_neg h1]
    by_cases h2 : (ty == "class_declaration") = true
    · rw [if_pos h2, if_pos h2, resolveClassHeritage_length_congr _ hf ha, hlist]
    · rw [if_neg h2, if_neg h2, hlist]

/-- The child loop of the Python walk preserves length equality. -/
theorem resolvePythonEdgesList_length_congr (fp : String)
    {fn1 fn2 all1 all2 : List DBNode} (cs : List TSNode)
    (ih : ∀ c ∈ cs, (resolvePythonEdges fp fn1 all1 c).length
        = (resolvePythonEdges fp fn2 all2 c).length) :
    (resolvePythonEdgesList fp fn1 all1 cs).length
      = (resolvePythonEdgesList fp fn2 all2 cs).length := by
  induction cs with
  | nil => simp [resolvePythonEdgesList]
  | cons c rest ihl =>
    rw [resolvePythonEdgesList, resolvePythonEdgesList]
    simp only [List.length_append]
    rw [ih c (by simp), ihl (fun x hx => ih x (by simp [hx]))]

/-- The Python edge walk emits an erasure-determined number of edges. -/
theorem resolvePythonEdges_length_congr (fp : String)
    {fn1 fn2 all1 all2 : List DBNode}
    (hf : fn1.map DBNode.e = fn2.map DBNode.e)
    (ha : all1.map DBNode.e = all2.map DBNode.e) :
    ∀ n, (resolvePythonEdges fp fn1 all1 n).length
      = (resolvePythonEdges fp fn2 all2 n).length := by
  refine TSNode.strongInduction
    (P := fun n => (resolvePythonEdges fp fn1 all1 n).length
      = (resolvePythonEdges fp fn2 all2 n).length) ?_
  intro ty tx sr er f cs ih
  rw [resolvePythonEdges, resolvePythonEdges]
  simp only [List.length_append, TSNode.ty, TSNode.children]
  have hlist := resolvePythonEdgesList_length_congr fp cs ih
  by_cases h1 : (ty == "import_statement" || ty == "import_from_statement") = true
  · rw [if_pos h1, if_pos h1, resolvePythonImport_length_congr _ fp hf ha, hlist]
  · rw [if_neg h1, if_neg h1]
    by_cases h2 : (ty == "class_definition") = true
    · rw [if_pos h2, if_pos h2, resolvePythonClassHeritage_length_congr _ hf ha, hlist]
    · rw [if_neg h2, if_neg h2, hlist]

/-- resolveEdges emits an erasure-determined number of edges. -/
theorem resolveEdges_length_congr (t : TSNode) (fp : String)
    {fn1 fn2 : List DBNode} {db1 db2 : DB}
    (hf : fn1.map DBNode.e = fn2.map DBNode.e)
    (hdb : nodesE db1 = nodesE db2) :
    (resolveEdges t fp fn1 db1).length = (resolveEdges t fp fn2 db2).length := by
  unfold resolveEdges
  have ha := getAllNodes_map_e hdb
  by_cases h1 : tsExtensions.contains (extname fp) = true
  · rw [if_pos h1, if_pos h1]
    exact resolveTypeScriptEdges_length_congr fp hf ha t
  · rw [if_neg h1, if_neg h1]
    by_cases h2 : (extname fp == ".py") = true
    · rw [if_pos h2, if_pos h2]
      exact resolvePythonEdges_length_congr fp hf ha t
    · rw [if_neg h2, if_neg h2]

/-- Destruct membership in the emit-if-found pattern. -/
theorem find?_opt_mem {l : List DBNode} (q : ENode → Bool) (f : DBNode → List EEdge)
    {e : EEdge}
    (he : e ∈ (match l.find? (fun t : DBNode => q t.e) with
      | none => ([] : List EEdge)
      | some tgt => f tgt)) :
    ∃ tgt, l.find? (fun t : DBNode => q t.e) = some tgt ∧ e ∈ f tgt := by
  cases h : l.find? (fun t : DBNode => q t.e) with
  | none => rw [h] at he; simp at he
  | some tgt => rw [h] at he; exact ⟨tgt, rfl, he⟩

/-- The validity payload of every resolved edge: both endpoints are ids
of rows of the given lists, and the relation passes the CHECK. -/
def EdgeOk (fn all : List DBNode) (e : EEdge) : Prop :=
  (∃ s ∈ fn, e.source_node_id = s.id) ∧ (∃ t ∈ all, e.target_node_id = t.id)
    ∧ edgeRelations.contains e.relation = true

/-- Import edges are valid. -/
theorem resolveImport_endpoints (n : TSNode) (fp : String) (fn all : List DBNode) :
    ∀ e ∈ resolveImport n fp fn all, EdgeOk fn all e := by
  intro e he
  rcases List.mem_filterMap.mp he with ⟨nm, hnm, hg⟩
  cases hsrc : fn.find? (fun x => x.e.exported) with
  | none => rw [hsrc] at hg; cases hg
  | some src =>
    rw [hsrc] at hg
    cases htgt : all.find? (fun t =>
        t.e.name == nm && t.e.exported && !(t.e.file_path == fp)) with
    | none => rw [htgt] at hg; cases hg
    | some tgt =>
      rw [htgt] at hg
      cases hg
      exact ⟨⟨src, List.mem_of_find?_eq_some hsrc, rfl⟩,
        ⟨tgt, List.mem_of_find?_eq_some htgt, rfl⟩,
        (show edgeRelations.contains "imports" = true by decide)⟩

/-- Python import edges are valid. -/
theorem resolvePythonImport_endpoints (n : TSNode) (fp : String) (fn all : List DBNode) :
    ∀ e ∈ resolvePythonImport n fp fn all, EdgeOk fn all e := by
  intro e he
  rcases List.mem_filterMap.mp he with ⟨nm, hnm, hg⟩
  cases hsrc : fn.find? (fun x => x.e.exported) with
  | none => rw [hsrc] at hg; cases hg
  | some src =>
    rw [hsrc] at hg
    cases htgt : all.find? (fun t => t.e.name == nm && !(t.e.file_path == fp)) with
    | none => rw [htgt] at hg; cases hg
    | some tgt =>
      rw [htgt] at hg
      cases hg
      exact ⟨⟨src, List.mem_of_find?_eq_some hsrc, rfl⟩,
        ⟨tgt, List.mem_of_find?_eq_some htgt, rfl⟩,
        (show edgeRelations.contains "imports" = true by decide)⟩

/-- Heritage-clause edges are valid when the source node is given. -/
theorem resolveHeritageClause_endpoints (n : TSNode) (s : DBNode) (all : List DBNode)
    (fn : List DBNode) (hs : s ∈ fn) :
    ∀ e ∈ resolveHeritageClause n s all, EdgeOk fn all e := by
  intro e he
  rcases List.mem_flatMap.mp he with ⟨c, hc, hce⟩
  by_cases h1 : (c.ty == "extends_clause") = true
  · rw [if_pos h1] at hce
    cases hgt : getTypeName c with
    | none => rw [hgt] at hce; simp at hce
    | some tn =>
      rw [hgt] at hce
      rcases find?_opt_mem (fun en => en.name == tn && en.kind == "class")
          (fun tgt => [⟨s.id, tgt.id, "extends"⟩]) hce with ⟨tgt, hft, hmem⟩
      simp at hmem
      subst hmem
      exact ⟨⟨s, hs, rfl⟩, ⟨tgt, List.mem_of_find?_eq_some hft, rfl⟩,
        (show edgeRelations.contains "extends" = true by decide)⟩
  · rw [if_neg h1] at hce
    by_cases h2 : (c.ty == "implements_clause") = true
    · rw [if_pos h2] at hce
      cases hgt : getTypeName c with
      | none => rw [hgt] at hce; simp at hce
      | some tn =>
        rw [hgt] at hce
        rcases find?_opt_mem (fun en => en.name == tn && en.kind == "interface")
            (fun tgt => [⟨s.id, tgt.id, "implements"⟩]) hce with ⟨tgt, hft, hmem⟩
        simp at hmem
        subst hmem
        exact ⟨⟨s, hs, rfl⟩, ⟨tgt, List.mem_of_find?_eq_some hft, rfl⟩,
          (show edgeRelations.contains "implements" = true by decide)⟩
    · rw [if_neg h2] at hce
      simp at hce

/-- Class-heritage edges are valid. -/
theorem resolveClassHeritage_endpoints (n : TSNode) (fn all : List DBNode) :
    ∀ e ∈ resolveClassHeritage n fn all, EdgeOk fn all e := by
  intro e he
  unfold resolveClassHeritage at he
  cases hgc : getClassName n with
  | none => rw [hgc] at he; simp at he
  | some className =>
    rw [hgc] at he
    rcases find?_opt_mem (fun en => en.name == className && en.kind == "class")
        (fun classNode => (n.children.filter (fun c => c.ty == "class_heritage")).flatMap
          (fun c => resolveHeritageClause c classNode all)) he with ⟨classNode, hfc, hce⟩
    rcases List.mem_flatMap.mp hce with ⟨c, hc, hcc⟩
    exact resolveHeritageClause_endpoints c classNode all fn
      (List.mem_of_find?_eq_some hfc) e hcc

/-- Python class-heritage edges are valid. -/
theorem resolvePythonClassHeritage_endpoints (n : TSNode) (fn all : List DBNode) :
    ∀ e ∈ resolvePythonClassHeritage n fn all, EdgeOk fn all e := by
  intro e he
  unfold resolvePythonClassHeritage at he
  cases hfn : childForFieldName n "name" with
  | none => rw [hfn] at he; simp at he
  | some nameNode =>
    rw [hfn] at he
    rcases find?_opt_mem (fun en => en.name == nameNode.text && en.kind == "class")
        (fun classNode =>
          match childForFieldName n "superclasses" with
          | none => []
          | some argumentList => argumentList.children.flatMap (fun c =>
              if c.ty == "identifier" then
                match all.find? (fun t => t.e.name == c.text && t.e.kind == "class") with
                | none => []
                | some tgt => [⟨classNode.id, tgt.id, "extends"⟩]
              else [])) he with ⟨classNode, hfc, hce⟩
    cases hsp : childForFieldName n "superclasses" with
    | none => rw [hsp] at hce; simp at hce
    | some argumentList =>
      rw [hsp] at hce
      simp only at hce
      rcases List.mem_flatMap.mp hce with ⟨c, hc, hcc⟩
      by_cases hid : (c.ty == "identifier") = true
      · rw [if_pos hid] at hcc
        rcases find?_opt_mem (fun en => en.name == c.text && en.kind == "class")
            (fun tgt => [⟨classNode.id, tgt.id, "extends"⟩]) hcc with ⟨tgt, hft, hmem⟩
        simp at hmem
        subst hmem
        exact ⟨⟨classNode, List.mem_of_find?_eq_some hfc, rfl⟩,
          ⟨tgt, List.mem_of_find?_eq_some hft, rfl⟩,
          (show edgeRelations.contains "extends" = true by decide)⟩
      · rw [if_neg hid] at hcc
        simp at hcc

/-- The TypeScript walk only emits valid edges (child-loop form). -/
theorem resolveTypeScriptEdgesList_endpoints (fp : String) (fn all : List DBNode)
    (cs : List TSNode)
    (ih : ∀ c ∈ cs, ∀ e ∈ resolveTypeScriptEdges fp fn all c, EdgeOk fn all e) :
    ∀ e ∈ resolveTypeScriptEdgesList fp fn all cs, EdgeOk fn all e := by
  induction cs with
  | nil => intro e he; rw [resolveTypeScriptEdgesList] at he; simp at he
  | cons c rest ihl =>
    intro e he
    rw [resolveTypeScriptEdgesList] at he
    rcases List.mem_append.mp he with h | h
    · exact ih c (by simp) e h
    · exact ihl (fun x hx => ih x (by simp [hx])) e h

/-- The TypeScript walk only emits valid edges. -/
theorem resolveTypeScriptEdges_endpoints (fp : String) (fn all : List DBNode) :
    ∀ n, ∀ e ∈ resolveTypeScriptEdges fp fn all n, EdgeOk fn all e := by
  refine TSNode.strongInduction
    (P := fun n => ∀ e ∈ resolveTypeScriptEdges fp fn all n, EdgeOk fn all e) ?_
  intro ty tx sr er f cs ih e he
  rw [resolveTypeScriptEdges] at he
  rcases List.mem_append.mp he with h | h
  · revert h
    simp only [TSNode.ty]
    by_cases h1 : (ty == "import_statement") = true
    · rw [if_pos h1]
      exact fun h => resolveImport_endpoints _ fp fn all e h
    · rw [if_neg h1]
      by_cases h2 : (ty == "class_declaration") = true
      · rw [if_pos h2]
        exact fun h => resolveClassHeritage_endpoints _ fn all e h
      · rw [if_neg h2]
        intro h
        simp at h
  · exact resolveTypeScriptEdgesList_endpoints fp fn all cs ih e
      (by simpa [TSNode.children] using h)

/-- The Python walk only emits valid edges (child-loop form). -/
theorem resolvePythonEdgesList_endpoints (fp : String) (fn all : List DBNode)
    (cs : List TSNode)
    (ih : ∀ c ∈ cs, ∀ e ∈ resolvePythonEdges fp fn all c, EdgeOk fn all e) :
    ∀ e ∈ resolvePythonEdgesList fp fn all cs, EdgeOk fn all e := by
  induction cs with
  | nil => intro e he; rw [resolvePythonEdgesList] at he; simp at he
  | cons c rest ihl =>
    intro e he
    rw [resolvePythonEdgesList] at he
    rcases List.mem_append.mp he with h | h
    · exact ih c (by simp) e h
    · exact ihl (fun x hx => ih x (by simp [hx])) e h

/-- The Python walk only emits valid edges. -/
theorem resolvePythonEdges_endpoints (fp : String) (fn all : List DBNode) :
    ∀ n, ∀ e ∈ resolvePythonEdges fp fn all n, EdgeOk fn all e := by
  refine TSNode.strongInduction
    (P := fun n => ∀ e ∈ resolvePythonEdges fp fn all n, EdgeOk fn all e) ?_
  intro ty tx sr er f cs ih e he
  rw [resolvePythonEdges] at he
  rcases List.mem_append.mp he with h | h
  · revert h
    simp only [TSNode.ty]
    by_cases h1 : (ty == "import_statement" || ty == "import_from_statement") = true
    · rw [if_pos h1]
      exact fun h => resolvePythonImport_endpoints _ fp fn all e h
    · rw [if_neg h1]
      by_cases h2 : (ty == "class_definition") = true
      · rw [if_pos h2]
        exact fun h => resolvePythonClassHeritage_endpoints _ fn all e h
      · rw [if_neg h2]
        intro h
        simp at h
  · exact resolvePythonEdgesList_endpoints fp fn all cs ih e
      (by simpa [TSNode.children] using h)

/-- Every resolved edge references a file node as its source, a store
node as its target, and a relation that passes the schema CHECK. -/
theorem resolveEdges_endpoints (t : TSNode) (fp : String) (fn : List DBNode)
    (db : DB) :
    ∀ e ∈ resolveEdges t fp fn db,
      (∃ s ∈ fn, e.source_node_id = s.id) ∧ (∃ x ∈ db.nodes, e.target_node_id = x.id)
        ∧ edgeRelations.contains e.relation = true := by
  intro e he
  unfold resolveEdges at he
  have conv : ∀ h : EdgeOk fn (getAllNodes db) e,
      (∃ s ∈ fn, e.source_node_id = s.id)
        ∧ (∃ x ∈ db.nodes, e.target_node_id = x.id)
        ∧ edgeRelations.contains e.relation = true := by
    rintro ⟨hs, ⟨tg, htg, hte⟩, hr⟩
    exact ⟨hs, ⟨tg, mem_sortBy.mp htg, hte⟩, hr⟩
  by_cases h1 : tsExtensions.contains (extname fp) = true
  · rw [if_pos h1] at he
    exact conv (resolveTypeScriptEdges_endpoints fp fn (getAllNodes db) t e he)
  · rw [if_neg h1] at he
    by_cases h2 : (extname fp == ".py") = true
    · rw [if_pos h2] at he
      exact conv (resolvePythonEdges_endpoints fp fn (getAllNodes db) t e he)
    · rw [if_neg h2] at he
      simp at he

/-- Assigned node ids are below the advanced counter. -/
theorem assignIds_id_lt (ens : List ENode) :
    ∀ (k : Nat), ∀ x ∈ assignIds k ens, x.id < k + ens.length := by
  induction ens with
  | nil => intro k x hx; simp [assignIds] at hx
  | cons e rest ih =>
    intro k x hx
    rcases List.mem_cons.mp hx with rfl | hx
    · simp
    · have := ih (k + 1) x hx
      simp only [List.length_cons]
      omega

/-- Assigned edge ids are below the advanced counter. -/
theorem assignEdgeIds_id_lt (ees : List EEdge) :
    ∀ (k : Nat), ∀ x ∈ assignEdgeIds k ees, x.id < k + ees.length := by
  induction ees with
  | nil => intro k x hx; simp [assignEdgeIds] at hx
  | cons e rest ih =>
    intro k x hx
    rcases List.mem_cons.mp hx with rfl | hx
    · simp
    · have := ih (k + 1) x hx
      simp only [List.length_cons]
      omega

/-- A successful bulk edge insert never changes the nodes table. -/
theorem insertEdges_preserves_nodes (es : List DBEdge) :
    ∀ {db db2 : DB}, insertEdges db es = Except.ok db2 → db2.nodes = db.nodes := by
  induction es with
  | nil =>
    intro db db2 h
    cases h
    rfl
  | cons a rest ih =>
    intro db db2 h
    cases ha : insertEdge db a with
    | error m =>
      rw [show insertEdges db (a :: rest) = Except.error m by
        simp only [insertEdges, List.foldlM_cons, ha]; rfl] at h
      cases h
    | ok dbx =>
      rw [show insertEdges db (a :: rest) = insertEdges dbx rest by
        simp only [insertEdges, List.foldlM_cons, ha]; rfl] at h
      rw [ih h, insertEdge_preserves_nodes ha]

/-- The binary relation between the collected file records of two runs:
the same file, and erasure-equal node rows. -/
def FDRel (f1 f2 : FileData) : Prop :=
  f1.file = f2.file ∧ f1.nodes.map DBNode.e = f2.nodes.map DBNode.e

/-- Pass-1 step of two runs from erasure-equal stores with fresh
counters: both runs advance the counter by the same amount, keep edges
untouched, keep erasure-equal stores, and collect related file records
or nothing. -/
theorem pass1Step_parity (f : PFile) {db1 db2 : DB} {k1 k2 : Nat}
    (he : nodesE db1 = nodesE db2)
    (hf1 : ∀ n ∈ db1.nodes, n.id < k1) (hf2 : ∀ n ∈ db2.nodes, n.id < k2) :
    ∃ d : Nat,
      (pass1Step db1 k1 f).2.1 = k1 + d ∧ (pass1Step db2 k2 f).2.1 = k2 + d
      ∧ nodesE (pass1Step db1 k1 f).1 = nodesE (pass1Step db2 k2 f).1
      ∧ (pass1Step db1 k1 f).1.edges = db1.edges
      ∧ (pass1Step db2 k2 f).1.edges = db2.edges
      ∧ (∀ n ∈ (pass1Step db1 k1 f).1.nodes, n.id < k1 + d)
      ∧ (∀ n ∈ (pass1Step db2 k2 f).1.nodes, n.id < k2 + d)
      ∧ (((pass1Step db1 k1 f).2.2 = none ∧ (pass1Step db2 k2 f).2.2 = none)
        ∨ (∃ fd1 fd2, (pass1Step db1 k1 f).2.2 = some fd1
            ∧ (pass1Step db2 k2 f).2.2 = some fd2 ∧ FDRel fd1 fd2
            ∧ (∀ x ∈ fd1.nodes, x ∈ (pass1Step db1 k1 f).1.nodes)
            ∧ (∀ x ∈ fd2.nodes, x ∈ (pass1Step db2 k2 f).1.nodes))) := by
  unfold pass1Step
  by_cases hsup : isSupportedExtension (extname f.relPath) = false
  · rw [if_pos hsup, if_pos hsup]
    exact ⟨0, rfl, rfl, he, rfl, rfl, by simpa using hf1, by simpa using hf2,
      Or.inl ⟨rfl, rfl⟩⟩
  · rw [if_neg hsup, if_neg hsup]
    cases f.tree with
    | none =>
      exact ⟨0, rfl, rfl, he, rfl, rfl, by simpa using hf1, by simpa using hf2,
        Or.inl ⟨rfl, rfl⟩⟩
    | some t =>
      dsimp only
      by_cases hemp : (extractNodes t f.relPath f.content).isEmpty = true
      · rw [if_pos hemp, if_pos hemp]
        exact ⟨0, rfl, rfl, he, rfl, rfl, by simpa using hf1, by simpa using hf2,
          Or.inl ⟨rfl, rfl⟩⟩
      · rw [if_neg hemp, if_neg hemp]
        rcases insertNodes_assign_parity (extractNodes t f.relPath f.content)
            db1 db2 k1 k2 he hf1 hf2 with ⟨⟨m1, hm1⟩, ⟨m2, hm2⟩⟩ | ⟨hok1, hok2⟩
        · rw [hm1, hm2]
          refine ⟨(extractNodes t f.relPath f.content).length, rfl, rfl, he, rfl, rfl,
            ?_, ?_, Or.inl ⟨rfl, rfl⟩⟩
          · intro n hn
            exact Nat.lt_of_lt_of_le (hf1 n hn) (Nat.le_add_right _ _)
          · intro n hn
            exact Nat.lt_of_lt_of_le (hf2 n hn) (Nat.le_add_right _ _)
        · rw [hok1, hok2]
          refine ⟨(extractNodes t f.relPath f.content).length, rfl, rfl, ?_, rfl, rfl,
            ?_, ?_, Or.inr ⟨⟨f, assignIds k1 (extractNodes t f.relPath f.content)⟩,
              ⟨f, assignIds k2 (extractNodes t f.relPath f.content)⟩,
              rfl, rfl, ⟨rfl, by rw [assignIds_map_e, assignIds_map_e]⟩,
              ?_, ?_⟩⟩
          · show nodesE ⟨db1.nodes ++ _, db1.edges⟩ = nodesE ⟨db2.nodes ++ _, db2.edges⟩
            simp only [nodesE, List.map_append, assignIds_map_e]
            simp only [nodesE] at he
            rw [he]
          · intro n hn
            rcases List.mem_append.mp hn with h | h
            · exact Nat.lt_of_lt_of_le (hf1 n h) (Nat.le_add_right _ _)
            · exact assignIds_id_lt _ k1 n h
          · intro n hn
            rcases List.mem_append.mp hn with h | h
            · exact Nat.lt_of_lt_of_le (hf2 n h) (Nat.le_add_right _ _)
            · exact assignIds_id_lt _ k2 n h
          · intro x hx
            exact List.mem_append_right _ hx
          · intro x hx
            exact List.mem_append_right _ hx

/-- A successful bulk node insert appends the rows. -/
theorem insertNodes_ok_nodes (ns : List DBNode) :
    ∀ {db db2 : DB}, insertNodes db ns = Except.ok db2 →
      db2.nodes = db.nodes ++ ns ∧ db2.edges = db.edges := by
  induction ns with
  | nil =>
    intro db db2 h
    cases h
    simp
  | cons a rest ih =>
    intro db db2 h
    cases ha : insertNode db a with
    | error m =>
      rw [show insertNodes db (a :: rest) = Except.error m by
        simp only [insertNodes, List.foldlM_cons, ha]; rfl] at h
      cases h
    | ok dbx =>
      rw [show insertNodes db (a :: rest) = insertNodes dbx rest by
        simp only [insertNodes, List.foldlM_cons, ha]; rfl] at h
      have hx := insertNode_ok_shape ha
      subst hx
      rcases ih h with ⟨h1, h2⟩
      constructor
      · rw [h1]
        simp
      · rw [h2]

/-- Rows present before a pass-1 step are still present after it. -/
theorem pass1Step_nodes_mono (f : PFile) (db : DB) (k : Nat) :
    ∀ x ∈ db.nodes, x ∈ (pass1Step db k f).1.nodes := by
  intro x hx
  unfold pass1Step
  by_cases hsup : isSupportedExtension (extname f.relPath) = false
  · rw [if_pos hsup]; exact hx
  · rw [if_neg hsup]
    cases f.tree with
    | none => exact hx
    | some t =>
      dsimp only
      by_cases hemp : (extractNodes t f.relPath f.content).isEmpty = true
      · rw [if_pos hemp]; exact hx
      · rw [if_neg hemp]
        cases hi : insertNodes db (assignIds k (extractNodes t f.relPath f.content)) with
        | ok dbx =>
          have := (insertNodes_ok_nodes _ hi).1
          show x ∈ dbx.nodes
          rw [this]
          exact List.mem_append_left _ hx
        | error m => exact hx

/-- Rows present before pass 1 are still present after it. -/
theorem pass1_nodes_mono (files : List PFile) :
    ∀ (db : DB) (k : Nat), ∀ x ∈ db.nodes, x ∈ (pass1 db k files).1.nodes := by
  induction files with
  | nil => intro db k x hx; exact hx
  | cons f rest ih =>
    intro db k x hx
    rcases hstep : pass1Step db k f with ⟨dbs, ks, fd?⟩
    have hx2 : x ∈ dbs.nodes := by
      have := pass1Step_nodes_mono f db k x hx
      rw [hstep] at this
      exact this
    have := ih dbs ks x hx2
    rcases hrec : pass1 dbs ks rest with ⟨dbf, kf, fds⟩
    rw [hrec] at this
    have hps : pass1 db k (f :: rest) = (dbf, kf, fd?.toList ++ fds) := by
      rw [pass1, hstep]
      dsimp only
      rw [hrec]
    rw [hps]
    exact this

/-- Pass 1 of two runs from erasure-equal stores with fresh counters:
the final stores are erasure-equal with untouched edges, the final
counters stay fresh, and the collected records correspond pointwise and
live in the respective final stores. -/
theorem pass1_parity (files : List PFile) :
    ∀ (db1 db2 : DB) (k1 k2 : Nat),
      nodesE db1 = nodesE db2 →
      (∀ n ∈ db1.nodes, n.id < k1) → (∀ n ∈ db2.nodes, n.id < k2) →
      nodesE (pass1 db1 k1 files).1 = nodesE (pass1 db2 k2 files).1
        ∧ (pass1 db1 k1 files).1.edges = db1.edges
        ∧ (pass1 db2 k2 files).1.edges = db2.edges
        ∧ (∀ n ∈ (pass1 db1 k1 files).1.nodes, n.id < (pass1 db1 k1 files).2.1)
        ∧ (∀ n ∈ (pass1 db2 k2 files).1.nodes, n.id < (pass1 db2 k2 files).2.1)
        ∧ List.Forall₂ FDRel (pass1 db1 k1 files).2.2 (pass1 db2 k2 files).2.2
        ∧ (∀ fd ∈ (pass1 db1 k1 files).2.2, ∀ x ∈ fd.nodes,
            x ∈ (pass1 db1 k1 files).1.nodes)
        ∧ (∀ fd ∈ (pass1 db2 k2 files).2.2, ∀ x ∈ fd.nodes,
            x ∈ (pass1 db2 k2 files).1.nodes) := by
  induction files with
  | nil =>
    intro db1 db2 k1 k2 he hf1 hf2
    refine ⟨he, rfl, rfl, hf1, hf2, List.Forall₂.nil, ?_, ?_⟩
    · intro fd hfd
      simp [pass1] at hfd
    · intro fd hfd
      simp [pass1] at hfd
  | cons f rest ih =>
    intro db1 db2 k1 k2 he hf1 hf2
    rcases pass1Step_parity f he hf1 hf2 with
      ⟨d, hk1, hk2, he2, hed1, hed2, hfr1, hfr2, hopt⟩
    rcases hstep1 : pass1Step db1 k1 f with ⟨db1s, k1s, fd1?⟩
    rcases hstep2 : pass1Step db2 k2 f with ⟨db2s, k2s, fd2?⟩
    rw [hstep1] at hk1 he2 hed1 hfr1
    rw [hstep2] at hk2 he2 hed2 hfr2
    rw [hstep1, hstep2] at hopt
    simp only at hk1 hk2 he2 hed1 hed2 hfr1 hfr2 hopt
    subst hk1
    subst hk2
    rcases ih db1s db2s (k1 + d) (k2 + d) he2 hfr1 hfr2 with
      ⟨ihe, ihed1, ihed2, ihfr1, ihfr2, ihfa, ihm1, ihm2⟩
    rcases hrec1 : pass1 db1s (k1 + d) rest with ⟨db1f, k1f, fds1⟩
    rcases hrec2 : pass1 db2s (k2 + d) rest with ⟨db2f, k2f, fds2⟩
    rw [hrec1] at ihe ihed1 ihfr1 ihm1
    rw [hrec2] at ihe ihed2 ihfr2 ihm2
    rw [hrec1, hrec2] at ihfa
    simp only at ihe ihed1 ihed2 ihfr1 ihfr2 ihfa ihm1 ihm2
    have hmono1 : ∀ x ∈ db1s.nodes, x ∈ db1f.nodes := by
      intro x hx
      have := pass1_nodes_mono rest db1s (k1 + d) x hx
      rw [hrec1] at this
      exact this
    have hmono2 : ∀ x ∈ db2s.nodes, x ∈ db2f.nodes := by
      intro x hx
      have := pass1_nodes_mono rest db2s (k2 + d) x hx
      rw [hrec2] at this
      exact this
    rw [show pass1 db1 k1 (f :: rest) = (db1f, k1f, fd1?.toList ++ fds1) by
      rw [pass1, hstep1]
      dsimp only
      rw [hrec1]]
    rw [show pass1 db2 k2 (f :: rest) = (db2f, k2f, fd2?.toList ++ fds2) by
      rw [pass1, hstep2]
      dsimp only
      rw [hrec2]]
    refine ⟨ihe, by rw [ihed1, hed1], by rw [ihed2, hed2], ihfr1, ihfr2, ?_, ?_, ?_⟩
    · rcases hopt with ⟨hn1, hn2⟩ | ⟨fd1, fd2, hs1, hs2, hrel, hm1s, hm2s⟩
      · subst hn1
        subst hn2
        simpa using ihfa
      · subst hs1
        subst hs2
        simpa using List.Forall₂.cons hrel ihfa
    · intro fd hfd
      rcases hopt with ⟨hn1, _⟩ | ⟨fd1, fd2, hs1, _, _, hm1s, _⟩
      · subst hn1
        simp at hfd
        exact ihm1 fd hfd
      · subst hs1
        simp at hfd
        rcases hfd with rfl | hfd
        · intro x hx
          exact hmono1 x (hm1s x hx)
        · exact ihm1 fd hfd
    · intro fd hfd
      rcases hopt with ⟨_, hn2⟩ | ⟨fd1, fd2, _, hs2, _, _, hm2s⟩
      · subst hn2
        simp at hfd
        exact ihm2 fd hfd
      · subst hs2
        simp at hfd
        rcases hfd with rfl | hfd
        · intro x hx
          exact hmono2 x (hm2s x hx)
        · exact ihm2 fd hfd

/-- Pass-2 step of two runs over related file records and stores: both
runs advance the counter and the edge count by the same amount, never
touch the nodes, and keep edge ids fresh. -/
theorem pass2Step_parity {fd1 fd2 : FileData} {db1 db2 : DB} {k1 k2 : Nat}
    (hrel : FDRel fd1 fd2)
    (he : nodesE db1 = nodesE db2)
    (hf1 : ∀ x ∈ db1.edges, x.id < k1) (hf2 : ∀ x ∈ db2.edges, x.id < k2)
    (hm1 : ∀ x ∈ fd1.nodes, x ∈ db1.nodes) (hm2 : ∀ x ∈ fd2.nodes, x ∈ db2.nodes) :
    ∃ d : Nat,
      (pass2Step db1 k1 fd1).2 = k1 + d
      ∧ (pass2Step db2 k2 fd2).2 = k2 + d
      ∧ (pass2Step db1 k1 fd1).1.nodes = db1.nodes
      ∧ (pass2Step db2 k2 fd2).1.nodes = db2.nodes
      ∧ (pass2Step db1 k1 fd1).1.edges.length = db1.edges.length + d
      ∧ (pass2Step db2 k2 fd2).1.edges.length = db2.edges.length + d
      ∧ (∀ x ∈ (pass2Step db1 k1 fd1).1.edges, x.id < k1 + d)
      ∧ (∀ x ∈ (pass2Step db2 k2 fd2).1.edges, x.id < k2 + d) := by
  obtain ⟨hfile, hnr⟩ := hrel
  unfold pass2Step
  rw [← hfile]
  cases hft : fd1.file.tree with
  | none =>
    exact ⟨0, rfl, rfl, rfl, rfl, rfl, rfl, by simpa using hf1, by simpa using hf2⟩
  | some t =>
    dsimp only
    have hlen : (resolveEdges t fd1.file.relPath fd1.nodes db1).length
        = (resolveEdges t fd1.file.relPath fd2.nodes db2).length :=
      resolveEdges_length_congr t fd1.file.relPath hnr he
    by_cases hemp : (resolveEdges t fd1.file.relPath fd1.nodes db1).isEmpty = true
    · have hemp2 : (resolveEdges t fd1.file.relPath fd2.nodes db2).isEmpty = true := by
        rw [List.isEmpty_iff_length_eq_zero] at hemp ⊢
        rw [← hlen]
        exact hemp
      rw [if_pos hemp, if_pos hemp2]
      exact ⟨0, rfl, rfl, rfl, rfl, rfl, rfl, by simpa using hf1, by simpa using hf2⟩
    · have hemp2 : ¬ (resolveEdges t fd1.file.relPath fd2.nodes db2).isEmpty = true := by
        rw [List.isEmpty_iff_length_eq_zero] at hemp ⊢
        rw [← hlen]
        exact hemp
      rw [if_neg hemp, if_neg hemp2]
      have hv1 : ∀ e ∈ resolveEdges t fd1.file.relPath fd1.nodes db1,
          (∃ n ∈ db1.nodes, e.source_node_id = n.id)
            ∧ (∃ n ∈ db1.nodes, e.target_node_id = n.id)
            ∧ edgeRelations.contains e.relation = true := by
        intro e hme
        rcases resolveEdges_endpoints t fd1.file.relPath fd1.nodes db1 e hme with
          ⟨⟨s, hsm, hse⟩, ht, hr⟩
        exact ⟨⟨s, hm1 s hsm, hse⟩, ht, hr⟩
      have hv2 : ∀ e ∈ resolveEdges t fd1.file.relPath fd2.nodes db2,
          (∃ n ∈ db2.nodes, e.source_node_id = n.id)
            ∧ (∃ n ∈ db2.nodes, e.target_node_id = n.id)
            ∧ edgeRelations.contains e.relation = true := by
        intro e hme
        rcases resolveEdges_endpoints t fd1.file.relPath fd2.nodes db2 e hme with
          ⟨⟨s, hsm, hse⟩, ht, hr⟩
        exact ⟨⟨s, hm2 s hsm, hse⟩, ht, hr⟩
      rw [insertEdges_assign_ok _ db1 k1 hf1 hv1, insertEdges_assign_ok _ db2 k2 hf2 hv2]
      refine ⟨(resolveEdges t fd1.file.relPath fd1.nodes db1).length,
        rfl, by rw [hlen], rfl, rfl, ?_, ?_, ?_, ?_⟩
      · simp [assignEdgeIds_length]
      · simp [assignEdgeIds_length, hlen]
      · intro x hx
        rcases List.mem_append.mp hx with h | h
        · exact Nat.lt_of_lt_of_le (hf1 x h) (Nat.le_add_right _ _)
        · exact assignEdgeIds_id_lt _ k1 x h
      · intro x hx
        rcases List.mem_append.mp hx with h | h
        · exact Nat.lt_of_lt_of_le (hf2 x h) (Nat.le_add_right _ _)
        · have := assignEdgeIds_id_lt _ k2 x h
          rw [← hlen] at this
          exact this

/-- Pass 2 of two runs over pointwise-related records: nodes untouched
and final edge counts equal. -/
theorem pass2_parity (fds1 : List FileData) :
    ∀ (fds2 : List FileData) (db1 db2 : DB) (k1 k2 : Nat),
      List.Forall₂ FDRel fds1 fds2 →
      nodesE db1 = nodesE db2 →
      db1.edges.length = db2.edges.length →
      (∀ x ∈ db1.edges, x.id < k1) → (∀ x ∈ db2.edges, x.id < k2) →
      (∀ fd ∈ fds1, ∀ x ∈ fd.nodes, x ∈ db1.nodes) →
      (∀ fd ∈ fds2, ∀ x ∈ fd.nodes, x ∈ db2.nodes) →
      (pass2 db1 k1 fds1).1.nodes = db1.nodes
        ∧ (pass2 db2 k2 fds2).1.nodes = db2.nodes
        ∧ (pass2 db1 k1 fds1).1.edges.length = (pass2 db2 k2 fds2).1.edges.length := by
  induction fds1 with
  | nil =>
    intro fds2 db1 db2 k1 k2 hfa he hel hf1 hf2 hm1 hm2
    cases hfa
    exact ⟨rfl, rfl, hel⟩
  | cons fd1 r1 ih =>
    intro fds2 db1 db2 k1 k2 hfa he hel hf1 hf2 hm1 hm2
    cases hfa with
    | cons hrel htail =>
      rename_i fd2 r2
      rcases pass2Step_parity hrel he hf1 hf2
          (hm1 fd1 (by simp)) (hm2 fd2 (by simp)) with
        ⟨d, hk1, hk2, hn1, hn2, hl1, hl2, hfr1, hfr2⟩
      rcases hstep1 : pass2Step db1 k1 fd1 with ⟨db1s, k1s⟩
      rcases hstep2 : pass2Step db2 k2 fd2 with ⟨db2s, k2s⟩
      rw [hstep1] at hk1 hn1 hl1 hfr1
      rw [hstep2] at hk2 hn2 hl2 hfr2
      simp only at hk1 hk2 hn1 hn2 hl1 hl2 hfr1 hfr2
      subst hk1
      subst hk2
      have he2 : nodesE db1s = nodesE db2s := by
        simp only [nodesE, hn1, hn2]
        exact he
      have hel2 : db1s.edges.length = db2s.edges.length := by
        rw [hl1, hl2, hel]
      have hmm1 : ∀ fd ∈ r1, ∀ x ∈ fd.nodes, x ∈ db1s.nodes := by
        intro fd hfd x hx
        rw [hn1]
        exact hm1 fd (by simp [hfd]) x hx
      have hmm2 : ∀ fd ∈ r2, ∀ x ∈ fd.nodes, x ∈ db2s.nodes := by
        intro fd hfd x hx
        rw [hn2]
        exact hm2 fd (by simp [hfd]) x hx
      rcases ih r2 db1s db2s (k1 + d) (k2 + d) htail he2 hel2 hfr1 hfr2 hmm1 hmm2 with
        ⟨ih1, ih2, ih3⟩
      have hps1 : pass2 db1 k1 (fd1 :: r1) = pass2 db1s (k1 + d) r1 := by
        rw [pass2, hstep1]
      have hps2 : pass2 db2 k2 (fd2 :: r2) = pass2 db2s (k2 + d) r2 := by
        rw [pass2, hstep2]
      rw [hps1, hps2]
      exact ⟨by rw [ih1, hn1], by rw [ih2, hn2], ih3⟩

/-- Stores with equal erasures and equal edge counts report the same
counts. -/
theorem getCounts_congr {da dbb : DB} (hn : nodesE da = nodesE dbb)
    (he : da.edges.length = dbb.edges.length) : getCounts da = getCounts dbb := by
  unfold getCounts
  have h1 : da.nodes.length = dbb.nodes.length := by
    have := congrArg List.length hn
    simpa [nodesE] using this
  have h2 : da.nodes.map (fun n => n.e.file_path)
      = dbb.nodes.map (fun n => n.e.file_path) := by
    have := congrArg (List.map ENode.file_path) hn
    simpa [nodesE, List.map_map, Function.comp] using this
  rw [h1, h2, he]

/-- Two arbokInit runs over the same project, from any two stores and
any two uuid supplies, report the same counts. -/
theorem arbokInit_counts_eq (files : List PFile) (db1 db2 : DB) (k1 k2 : Nat) :
    getCounts (arbokInit files db1 k1).1 = getCounts (arbokInit files db2 k2).1 := by
  have hpar := pass1_parity files ⟨[], []⟩ ⟨[], []⟩ k1 k2 rfl (by simp) (by simp)
  rcases hp1 : pass1 (⟨[], []⟩ : DB) k1 files with ⟨d1, c1, fds1⟩
  rcases hp2 : pass1 (⟨[], []⟩ : DB) k2 files with ⟨d2, c2, fds2⟩
  rw [hp1, hp2] at hpar
  simp only at hpar
  obtain ⟨he, hed1, hed2, hfr1, hfr2, hfa, hm1, hm2⟩ := hpar
  have hp2par := pass2_parity fds1 fds2 d1 d2 c1 c2 hfa he
    (by rw [hed1, hed2]) (by rw [hed1]; simp) (by rw [hed2]; simp) hm1 hm2
  obtain ⟨hn1, hn2, hlen⟩ := hp2par
  have h1 : arbokInit files db1 k1 = pass2 d1 c1 fds1 := by
    unfold arbokInit clearDatabase
    dsimp only
    rw [hp1]
  have h2 : arbokInit files db2 k2 = pass2 d2 c2 fds2 := by
    unfold arbokInit clearDatabase
    dsimp only
    rw [hp2]
  rw [h1, h2]
  apply getCounts_congr
  · simp only [nodesE, hn1, hn2]
    exact he
  · exact hlen

/-- C6: running the full-project indexing twice in a row on an unchanged
project yields identical node counts and edge counts (and distinct-file
counts), although the two runs may draw entirely different ids — each
run first clears all nodes and edges and then rebuilds deterministically
from the same file contents; only the machine-generated ids can differ
between runs, and no count depends on them. -/
theorem arbokInit_run_twice_counts (files : List PFile) (db : DB) (k1 k2 : Nat) :
    getCounts (arbokInit files (arbokInit files db k1).1 k2).1
      = getCounts (arbokInit files db k1).1 :=
  arbokInit_counts_eq files (arbokInit files db k1).1 db k2 k1

end Arbok
